import Mathlib

/-!
Verification of the deterministic event-loop scheduler specified for the
js-async-fundamentals repository.  The repository ships only demonstration
scripts that call the native timer and promise APIs; the scheduler core
(Clock, TaskQueue, MicrotaskQueue, Executor, EventLoop, PromiseLike) that
those demos exercise is described by the specification but is not present
under src/.  All scheduler definitions below are therefore modelled from
the spec, and the demo scripts are reproduced as concrete programs over
that model.
-/

namespace JsAsync

/-- Modelled from the spec: runtime values handled by units of work.
`vrec` is an allSettled outcome record (status flag plus value/reason);
`vprom` is a reference to a PromiseLike by its id in the promise store. -/
inductive Value where
  | vunit : Value
  | vstr : String → Value
  | vnat : Nat → Value
  | vlist : List Value → Value
  | vrec : Bool → Value → Value
  | vprom : Nat → Value

/-- Rendering of a value for log output inside demo programs. -/
def vshow : Value → String
  | .vstr s => s
  | .vnat n => toString n
  | _ => "?"

/-- Modelled from the spec: the deep syntax of a unit of work.  Continuations
of type `Nat → Prog` bind freshly created handles (timer handles, promise
ids); handlers of type `Value → Prog` receive settlement values.  In
`thenP` each handler is a flag plus a function: the flag records whether
the handler was supplied (a missing handler passes the settlement
through), because an `Option` around a recursive function type is not a
legal nested occurrence. -/
inductive Prog where
  | nop : Prog
  | log : String → Prog
  | retV : Value → Prog
  | throwE : Value → Prog
  | seq : Prog → Prog → Prog
  | scheduleTimer : Int → Prog → (Nat → Prog) → Prog
  | cancelTimer : Nat → Prog
  | enqueueMicro : Prog → Prog
  | newPromise : (Nat → Prog) → Prog
  | resolveP : Nat → Value → Prog
  | rejectP : Nat → Value → Prog
  | thenP : Nat → Bool → (Value → Prog) → Bool → (Value → Prog) → (Nat → Prog) → Prog
  | allP : List Nat → (Nat → Prog) → Prog
  | allSettledP : List Nat → (Nat → Prog) → Prog

/-- Decode one flagged handler of `Prog.thenP` into an optional handler. -/
def optHandler (b : Bool) (f : Value → Prog) : Option (Value → Prog) :=
  if b then some f else none

/-- Modelled from the spec: a continuation registered on a pending
PromiseLike.  `thenR` settles the derived promise through the matching
handler; `combineR` feeds slot `idx` of combiner `cid` (Promise.all /
Promise.allSettled bookkeeping). -/
inductive Reaction where
  | thenR : Option (Value → Prog) → Option (Value → Prog) → Nat → Reaction
  | combineR : Nat → Nat → Reaction

/-- Modelled from the spec: PromiseLike state — Pending with its ordered
waiters, or settled Fulfilled/Rejected with the value/reason. -/
inductive PState where
  | pending : List Reaction → PState
  | fulfilled : Value → PState
  | rejected : Value → PState

/-- Modelled from the spec: a macrotask in the TaskQueue.  `seqn` is both
the timer handle and the insertion sequence used to break due-time ties. -/
structure Task where
  seqn : Nat
  dueTime : Int
  body : Prog
  canceled : Bool

/-- Modelled from the spec: a queued microtask — a plain queued unit of
work, a promise reaction carrying its settlement, or a combiner update. -/
inductive Micro where
  | mrun : Prog → Micro
  | react : Nat → Option (Value → Prog) → Except Value Value → Micro
  | combine : Nat → Nat → Except Value Value → Micro

/-- Modelled from the spec: bookkeeping for Promise.all / Promise.allSettled:
the combined promise id, the kind, one result slot per input, and the count
of inputs that have not yet reported. -/
inductive CombKind where
  | allK : CombKind
  | allSettledK : CombKind
  deriving DecidableEq, Repr

structure Combiner where
  target : Nat
  kind : CombKind
  slots : List (Option Value)
  remaining : Nat

/-- Modelled from the spec: the whole scheduler state — logical clock,
promise store (with a handled flag per promise for unhandled-rejection
reporting), combiners, task insertion counter, TaskQueue, MicrotaskQueue,
observed log output and the collected execution errors. -/
structure LoopState where
  clock : Int
  proms : List PState
  handled : List Bool
  combs : List Combiner
  nextSeq : Nat
  tasks : List Task
  micro : List Micro
  out : List String
  errors : List Value

def LoopState.initial : LoopState :=
  ⟨0, [], [], [], 0, [], [], [], []⟩

/-- The microtask built when reaction `r` observes settlement `res`:
for a `then` waiter the handler matching the settlement side is selected. -/
def reactionMicro (r : Reaction) (res : Except Value Value) : Micro :=
  match r with
  | .thenR onF onR d =>
      match res with
      | .ok _ => .react d onF res
      | .error _ => .react d onR res
  | .combineR cid i => .combine cid i res

/-- Replace the promise at index `p` in the store. -/
def setProm (p : Nat) (st : PState) (s : LoopState) : LoopState :=
  { s with proms := s.proms.set p st }

/-- Mark promise `p` as having a registered reaction (its rejection, if
any, is observed or propagated rather than unhandled). -/
def markHandled (p : Nat) (s : LoopState) : LoopState :=
  { s with handled := s.handled.set p true }

/-- Modelled from the spec: registering a continuation on a PromiseLike —
appended to the waiters if Pending, or immediately scheduled as a microtask
with the recorded settlement if already settled. -/
def registerReaction (p : Nat) (r : Reaction) (s : LoopState) : LoopState :=
  match s.proms[p]? with
  | some (.pending ws) => markHandled p (setProm p (.pending (ws ++ [r])) s)
  | some (.fulfilled v) =>
      markHandled p { s with micro := s.micro ++ [reactionMicro r (.ok v)] }
  | some (.rejected e) =>
      markHandled p { s with micro := s.micro ++ [reactionMicro r (.error e)] }
  | none => s

/-- Modelled from the spec: fulfil a pending promise directly, converting
every waiter registered so far into a microtask, in registration order. -/
def settleFulfill (p : Nat) (v : Value) (ws : List Reaction) (s : LoopState) : LoopState :=
  { setProm p (.fulfilled v) s with
    micro := s.micro ++ ws.map (fun w => reactionMicro w (.ok v)) }

/-- Modelled from the spec: `resolve(value)` — a no-op unless Pending; if
the value is itself a PromiseLike its eventual state is adopted by
registering a pass-through continuation on it; otherwise the promise is
fulfilled and all waiters become microtasks. -/
def resolvePromise (p : Nat) (v : Value) (s : LoopState) : LoopState :=
  match s.proms[p]? with
  | some (.pending ws) =>
      match v with
      | .vprom q => registerReaction q (.thenR none none p) s
      | _ => settleFulfill p v ws s
  | _ => s

/-- Modelled from the spec: `reject(error)` — symmetric, transitions to
Rejected; a no-op if already settled. -/
def rejectPromise (p : Nat) (e : Value) (s : LoopState) : LoopState :=
  match s.proms[p]? with
  | some (.pending ws) =>
      { setProm p (.rejected e) s with
        micro := s.micro ++ ws.map (fun w => reactionMicro w (.error e)) }
  | _ => s

/-- Register `combineR cid i` reactions on the inputs of a combiner, in
input order starting at slot index `i0`. -/
def registerAll (ps : List Nat) (cid : Nat) (i0 : Nat) (s : LoopState) : LoopState :=
  match ps with
  | [] => s
  | p :: rest => registerAll rest cid (i0 + 1) (registerReaction p (.combineR cid i0) s)

/-- Collect a fully filled slot list, if every slot has reported. -/
def collectSlots : List (Option Value) → Option (List Value)
  | [] => some []
  | none :: _ => none
  | some v :: rest =>
      match collectSlots rest with
      | some vs => some (v :: vs)
      | none => none

/-- Modelled from the spec: executing one unit of work.  Execution is
run-to-completion: nothing interleaves; the result is the updated state
together with the returned value or the thrown error (`Except.error`),
and `seq` short-circuits on a throw. -/
def execProg : Prog → LoopState → LoopState × Except Value Value
  | .nop, s => (s, .ok .vunit)
  | .log m, s => ({ s with out := s.out ++ [m] }, .ok .vunit)
  | .retV v, s => (s, .ok v)
  | .throwE e, s => (s, .error e)
  | .seq a b, s =>
      match execProg a s with
      | (s1, .error e) => (s1, .error e)
      | (s1, .ok _) => execProg b s1
  | .scheduleTimer d body k, s =>
      execProg (k s.nextSeq)
        { s with nextSeq := s.nextSeq + 1,
                 tasks := s.tasks ++ [⟨s.nextSeq, s.clock + max d 0, body, false⟩] }
  | .cancelTimer h, s =>
      ({ s with tasks := s.tasks.map fun t =>
          if t.seqn = h then { t with canceled := true } else t }, .ok .vunit)
  | .enqueueMicro body, s =>
      ({ s with micro := s.micro ++ [.mrun body] }, .ok .vunit)
  | .newPromise k, s =>
      execProg (k s.proms.length)
        { s with proms := s.proms ++ [.pending []], handled := s.handled ++ [false] }
  | .resolveP p v, s => (resolvePromise p v s, .ok .vunit)
  | .rejectP p e, s => (rejectPromise p e s, .ok .vunit)
  | .thenP p bF onF bR onR k, s =>
      execProg (k s.proms.length)
        (registerReaction p (.thenR (optHandler bF onF) (optHandler bR onR) s.proms.length)
          { s with proms := s.proms ++ [.pending []], handled := s.handled ++ [false] })
  | .allP ps k, s =>
      execProg (k s.proms.length)
        (if ps.isEmpty then
          resolvePromise s.proms.length (.vlist [])
            { s with proms := s.proms ++ [.pending []], handled := s.handled ++ [false],
                     combs := s.combs ++ [⟨s.proms.length, .allK, [], 0⟩] }
        else
          registerAll ps s.combs.length 0
            { s with proms := s.proms ++ [.pending []], handled := s.handled ++ [false],
                     combs := s.combs ++
                       [⟨s.proms.length, .allK, List.replicate ps.length none, ps.length⟩] })
  | .allSettledP ps k, s =>
      execProg (k s.proms.length)
        (if ps.isEmpty then
          resolvePromise s.proms.length (.vlist [])
            { s with proms := s.proms ++ [.pending []], handled := s.handled ++ [false],
                     combs := s.combs ++ [⟨s.proms.length, .allSettledK, [], 0⟩] }
        else
          registerAll ps s.combs.length 0
            { s with proms := s.proms ++ [.pending []], handled := s.handled ++ [false],
                     combs := s.combs ++
                       [⟨s.proms.length, .allSettledK, List.replicate ps.length none,
                         ps.length⟩] })

/-- Replace combiner `cid`. -/
def setComb (cid : Nat) (c : Combiner) (s : LoopState) : LoopState :=
  { s with combs := s.combs.set cid c }

/-- Modelled from the spec: one combiner update, run when input `idx`
settles.  Promise.all rejects the combined promise on the first observed
rejection and resolves with the ordered values once every slot reported;
Promise.allSettled records an outcome record per input and only ever
resolves. -/
def runCombine (cid : Nat) (idx : Nat) (res : Except Value Value) (s : LoopState) : LoopState :=
  match s.combs[cid]? with
  | none => s
  | some c =>
      match c.kind with
      | .allK =>
          match res with
          | .error e => rejectPromise c.target e s
          | .ok v =>
              let c1 : Combiner :=
                { c with slots := c.slots.set idx (some v), remaining := c.remaining - 1 }
              let s1 := setComb cid c1 s
              if c1.remaining = 0 then
                match collectSlots c1.slots with
                | some vs => resolvePromise c.target (.vlist vs) s1
                | none => s1
              else s1
      | .allSettledK =>
          let rec1 : Value :=
            match res with
            | .ok v => .vrec true v
            | .error e => .vrec false e
          let c1 : Combiner :=
            { c with slots := c.slots.set idx (some rec1), remaining := c.remaining - 1 }
          let s1 := setComb cid c1 s
          if c1.remaining = 0 then
            match collectSlots c1.slots with
            | some vs => resolvePromise c.target (.vlist vs) s1
            | none => s1
          else s1

/-- The settlement payload handed to a reaction handler. -/
def payloadOf : Except Value Value → Value
  | .ok v => v
  | .error e => e

/-- Modelled from the spec: running one microtask.  A plain queued unit of
work that throws is recorded as an ExecutionError; a `then` reaction runs
the selected handler and settles the derived promise with its return value,
or rejects the derived promise with the thrown error; an absent handler
passes the settlement through unchanged. -/
def runMicro (m : Micro) (s : LoopState) : LoopState :=
  match m with
  | .mrun body =>
      match execProg body s with
      | (s1, .error e) => { s1 with errors := s1.errors ++ [e] }
      | (s1, .ok _) => s1
  | .react d h res =>
      match h with
      | some f =>
          match execProg (f (payloadOf res)) s with
          | (s1, .error e) => rejectPromise d e s1
          | (s1, .ok rv) => resolvePromise d rv s1
      | none =>
          match res with
          | .ok v => resolvePromise d v s
          | .error e => rejectPromise d e s
  | .combine cid i res => runCombine cid i res s

/-- Modelled from the spec: running one macrotask via the Executor — a
thrown error is caught and recorded, never halting the loop. -/
def runTask (t : Task) (s : LoopState) : LoopState :=
  match execProg t.body s with
  | (s1, .error e) => { s1 with errors := s1.errors ++ [e] }
  | (s1, .ok _) => s1

/-- Modelled from the spec: `popNextDue` — the earliest-due non-canceled
task with dueTime at or before the given time, earliest insertion first
among equal due times; the returned remainder keeps insertion order. -/
def popNextDue (t : Int) : List Task → Option (Task × List Task)
  | [] => none
  | x :: xs =>
      if x.canceled = false ∧ x.dueTime ≤ t then
        match popNextDue t xs with
        | some (y, ys) =>
            if x.dueTime ≤ y.dueTime then some (x, xs) else some (y, x :: ys)
        | none => some (x, xs)
      else
        (popNextDue t xs).map fun p => (p.1, x :: p.2)

/-- Modelled from the spec: `peekNextDueTime` — the earliest due time among
non-canceled tasks, used to fast-forward the clock. -/
def peekNextDue : List Task → Option Int
  | [] => none
  | x :: xs =>
      match peekNextDue xs with
      | none => if x.canceled then none else some x.dueTime
      | some d => if x.canceled then some d else some (min x.dueTime d)

/-- Modelled from the spec: `drainAll` — repeatedly pop and run from the
front of the MicrotaskQueue, including microtasks enqueued while draining,
until empty.  The fuel bounds unbounded self-chaining; `none` means the
budget was exhausted with work remaining. -/
def drainMicro : Nat → LoopState → Option LoopState
  | 0, s =>
      match s.micro with
      | [] => some s
      | _ :: _ => none
  | fuel + 1, s =>
      match s.micro with
      | [] => some s
      | m :: rest => drainMicro fuel (runMicro m { s with micro := rest })

/-- The clock value at which the next macrotask is popped: unchanged when a
task is already due, otherwise fast-forwarded to the next due time. -/
def nextClock (s : LoopState) : Int :=
  match popNextDue s.clock s.tasks with
  | some _ => s.clock
  | none => (peekNextDue s.tasks).getD s.clock

/-- Modelled from the spec: one EventLoop iteration — drain the
MicrotaskQueue exhaustively, then pop and run at most one due macrotask
(advancing the clock to the next due time when nothing is currently due).
`some (false, s)` is quiescence. -/
def tick (fuel : Nat) (s : LoopState) : Option (Bool × LoopState) :=
  match drainMicro fuel s with
  | none => none
  | some s1 =>
      match popNextDue (nextClock s1) s1.tasks with
      | some (t, rest) =>
          some (true, runTask t { s1 with clock := nextClock s1, tasks := rest })
      | none => some (false, { s1 with clock := nextClock s1 })

/-- Iterate `tick` until quiescent, within the fuel budget. -/
def loopTicks : Nat → LoopState → Option LoopState
  | 0, _ => none
  | n + 1, s =>
      match tick (n + 1) s with
      | none => none
      | some (false, s1) => some s1
      | some (true, s1) => loopTicks n s1

/-- Modelled from the spec: `runToCompletion` — run the initial synchronous
unit of work to completion (recording a thrown error rather than
propagating it), then drive the EventLoop until both queues are quiescent. -/
def runToCompletion (fuel : Nat) (main : Prog) : Option LoopState :=
  match execProg main LoopState.initial with
  | (s, .error e) => loopTicks fuel { s with errors := s.errors ++ [e] }
  | (s, .ok _) => loopTicks fuel s

/-- Modelled from the spec: the unhandled rejections reported at
quiescence — promises left Rejected with no reaction ever registered. -/
def unhandledRejections (s : LoopState) : List Value :=
  (s.proms.zip s.handled).filterMap fun pc =>
    match pc with
    | (.rejected e, false) => some e
    | _ => none

/-- Modelled from the spec: the list `runToCompletion` reports — execution
errors in collection order followed by unhandled rejections. -/
def reportOf (s : LoopState) : List Value :=
  s.errors ++ unhandledRejections s

/-! Derived forms mirroring the promise API used by the demo scripts. -/

/-- `Promise.resolve(v)`: a fresh promise settled synchronously, handed to
the continuation. -/
def promiseResolve (v : Value) (k : Nat → Prog) : Prog :=
  .newPromise fun p => .seq (.resolveP p v) (k p)

/-- `p.then(f)` discarding the derived promise. -/
def thenF (p : Nat) (f : Value → Prog) : Prog :=
  .thenP p true f false (fun _ => .nop) (fun _ => .nop)

/-- `p.then(f)` binding the derived promise in the continuation. -/
def thenFD (p : Nat) (f : Value → Prog) (k : Nat → Prog) : Prog :=
  .thenP p true f false (fun _ => .nop) k

/-- `p.catch(g)` binding the derived promise in the continuation. -/
def catchD (p : Nat) (g : Value → Prog) (k : Nat → Prog) : Prog :=
  .thenP p false (fun _ => .nop) true g k

/-! Demo scenarios drawn from the repository scripts. -/

/-- The DevTools console demo: `log(A); scheduleTimer(0, log B);
Promise.resolve().then(log C); log(D)`. -/
def c6prog : Prog :=
  .seq (.log "A")
    (.seq (.scheduleTimer 0 (.log "B") fun _ => .nop)
      (.seq (promiseResolve .vunit fun p => thenF p fun _ => .log "C")
        (.log "D")))

/-- The nested-promise demo: a settled `.then` whose handler logs X and
registers a further `.then` logging Y, next to a zero-delay timer Z. -/
def c2prog : Prog :=
  .seq
    (promiseResolve .vunit fun p =>
      thenF p fun _ =>
        .seq (.log "X") (promiseResolve .vunit fun q => thenF q fun _ => .log "Y"))
    (.scheduleTimer 0 (.log "Z") fun _ => .nop)

/-- A submission made by one synchronous unit: either a microtask or a
timer macrotask, each logging a name when it runs. -/
inductive Sub where
  | mic : String → Sub
  | tim : Int → String → Sub

/-- The synchronous unit that performs a list of submissions in order. -/
def submitProg : List Sub → Prog
  | [] => .nop
  | .mic m :: rest => .seq (.enqueueMicro (.log m)) (submitProg rest)
  | .tim d m :: rest => .seq (.scheduleTimer d (.log m) fun _ => .nop) (submitProg rest)

/-- Names of the submitted microtasks, in submission order. -/
def microNames : List Sub → List String
  | [] => []
  | .mic m :: rest => m :: microNames rest
  | .tim _ _ :: rest => microNames rest

/-- Names of the submitted macrotasks, in submission order. -/
def macroNames : List Sub → List String
  | [] => []
  | .mic _ :: rest => macroNames rest
  | .tim _ m :: rest => m :: macroNames rest

/-- Timers with delays `ds` scheduled from one synchronous unit; timer `i`
logs `toString i` when it fires. -/
def timersProgAux : List Int → Nat → Prog
  | [], _ => .nop
  | d :: ds, i =>
      .seq (.scheduleTimer d (.log (toString i)) fun _ => .nop) (timersProgAux ds (i + 1))

def timersProg (ds : List Int) : Prog :=
  timersProgAux ds 0

/-- Settle promise `p` with the given outcome. -/
def settleProg (p : Nat) : Except Value Value → Prog
  | .ok v => .resolveP p v
  | .error e => .rejectP p e

/-- Create one promise per outcome, settle each synchronously, and hand the
list of their ids to the continuation in creation order. -/
def mkSettled : List (Except Value Value) → (List Nat → Prog) → Prog
  | [], k => k []
  | r :: rs, k =>
      .newPromise fun p => .seq (settleProg p r) (mkSettled rs fun ps => k (p :: ps))

/-- `Promise.allSettled` over already-settled inputs with outcomes `rs`. -/
def allSettledProg (rs : List (Except Value Value)) : Prog :=
  mkSettled rs fun ps => .allSettledP ps fun _ => .nop

/-- `Promise.all` over already-fulfilled inputs with values `vs`. -/
def allValsProg (vs : List Value) : Prog :=
  mkSettled (vs.map .ok) fun ps => .allP ps fun _ => .nop

/-- The allSettled outcome record for one input. -/
def outcomeRec : Except Value Value → Value
  | .ok v => .vrec true v
  | .error e => .vrec false e

/-- `Promise.all` where input 0 rejects E1 at delay 20 and input 1 rejects
E2 at delay 10 — the inputs settle in the opposite of input order. -/
def c4rejProg : Prog :=
  .newPromise fun p1 =>
    .newPromise fun p2 =>
      .seq (.scheduleTimer 20 (.rejectP p1 (.vstr "E1")) fun _ => .nop)
        (.seq (.scheduleTimer 10 (.rejectP p2 (.vstr "E2")) fun _ => .nop)
          (.allP [p1, p2] fun _ => .nop))

/-- `Promise.all` where input 0 fulfils V1 at delay 20 and input 1 fulfils
V2 at delay 10 — values must still come back in input order. -/
def c4valProg : Prog :=
  .newPromise fun p1 =>
    .newPromise fun p2 =>
      .seq (.scheduleTimer 20 (.resolveP p1 (.vstr "V1")) fun _ => .nop)
        (.seq (.scheduleTimer 10 (.resolveP p2 (.vstr "V2")) fun _ => .nop)
          (.allP [p1, p2] fun _ => .nop))

/-- The statePromise demo distilled: settle once, attempt to re-settle both
ways, then register two handlers on the already-settled promise. -/
def c5prog : Prog :=
  .newPromise fun p =>
    .seq (.resolveP p (.vstr "v"))
      (.seq (.resolveP p (.vstr "w"))
        (.seq (.rejectP p (.vstr "x"))
          (.seq (thenF p fun v => .log ("h1:" ++ vshow v))
            (thenF p fun _ => .log "h2"))))

/-- The clearTimeout demo: schedule T, then cancel it before it is due,
with a second timer K as a witness that the loop still runs. -/
def c7cancelProg : Prog :=
  .scheduleTimer 5 (.log "T") fun h =>
    .seq (.scheduleTimer 1 (.log "K") fun _ => .nop) (.cancelTimer h)

/-- Canceling after the timer has fired: T fires at 0, a later task tries
to cancel its stale handle. -/
def c7lateProg : Prog :=
  .scheduleTimer 0 (.log "T") fun h =>
    .scheduleTimer 5 (.cancelTimer h) fun _ => .nop

/-- A run containing a throwing microtask, a throwing macrotask, healthy
work after both, and an unhandled rejection. -/
def c9prog : Prog :=
  .seq (.scheduleTimer 0 (.seq (.log "T1") (.throwE (.vstr "boomTask"))) fun _ => .nop)
    (.seq (.scheduleTimer 0 (.log "T2") fun _ => .nop)
      (.seq (.enqueueMicro (.throwE (.vstr "boomMicro")))
        (.seq (.enqueueMicro (.log "M2"))
          (.newPromise fun p => .rejectP p (.vstr "lost")))))

/-- The error-in-then demo: a fulfilled promise whose `.then` handler logs
and then throws, with a downstream `.catch` logging the caught reason. -/
def c10prog : Prog :=
  promiseResolve (.vstr "S") fun p =>
    thenFD p (fun _ => .seq (.log "h") (.throwE (.vstr "boom"))) fun d =>
      catchD d (fun e => .log ("caught:" ++ vshow e)) fun _ => .nop

/-! Specification-level artefacts used to state the ordering theorems. -/

/-- Pure model of the macrotask phase: the order in which the EventLoop
pops tasks when no microtask work intervenes — pop a due task at the
current time, or fast-forward to the next due time and pop there. -/
def drainTasks : Nat → Int → List Task → List Task
  | 0, _, _ => []
  | n + 1, c, ts =>
      match popNextDue c ts with
      | some (t, rest) => t :: drainTasks n c rest
      | none =>
          match peekNextDue ts with
          | none => []
          | some d =>
              match popNextDue d ts with
              | some (t, rest) => t :: drainTasks n d rest
              | none => []

/-- The name a pure logging payload prints. -/
def bodyName : Prog → String
  | .log m => m
  | _ => ""

/-- A task whose payload only logs and which has not been canceled. -/
def logTask (t : Task) : Prop :=
  (∃ m, t.body = .log m) ∧ t.canceled = false

/-- The tasks created by `submitProg` at clock `c`, insertion counter `q`. -/
def mkSubTasks : List Sub → Int → Nat → List Task
  | [], _, _ => []
  | .mic _ :: rest, c, q => mkSubTasks rest c q
  | .tim d m :: rest, c, q => ⟨q, c + max d 0, .log m, false⟩ :: mkSubTasks rest c (q + 1)

/-- The tasks created by `timersProg`; timer `i` is due at its clamped
delay and logs its own index. -/
def timerTasks : List Int → Nat → List Task
  | [], _ => []
  | d :: ds, i => ⟨i, max d 0, .log (toString i), false⟩ :: timerTasks ds (i + 1)

/-- The combiner-update microtasks produced when already-settled inputs
with outcomes `rs` are registered on combiner `cid` from slot `i`. -/
def combMicros (cid : Nat) : Nat → List (Except Value Value) → List Micro
  | _, [] => []
  | i, r :: rs => .combine cid i r :: combMicros cid (i + 1) rs

/-- An outcome that is not a promise reference, so settling with it does
not trigger the adoption rule. -/
def plainRes : Except Value Value → Prop
  | .ok (.vprom _) => False
  | _ => True

/-- A value that is not a promise reference. -/
def plainVal : Value → Prop
  | .vprom _ => False
  | _ => True

/-- The input promise states built by `mkSettled`. -/
def toPState : Except Value Value → PState
  | .ok v => .fulfilled v
  | .error e => .rejected e

/-- Settled promises only ever stay settled, with the same value: the
one-way monotonic state transition of the spec, as a relation between a
state and any state reachable from it. -/
def settledLE (s s1 : LoopState) : Prop :=
  ∀ (p : Nat) (v : Value),
    (s.proms[p]? = some (PState.fulfilled v) → s1.proms[p]? = some (PState.fulfilled v)) ∧
    (s.proms[p]? = some (PState.rejected v) → s1.proms[p]? = some (PState.rejected v))

/-- The handled flags after registering reactions on promises
`q, q+1, ..., q+n-1` in order. -/
def setTrueRange : Nat → Nat → List Bool → List Bool
  | _, 0, h => h
  | q, n + 1, h => setTrueRange (q + 1) n (h.set q true)

/-- The value stored in a combiner slot when an input reports. -/
def slotOf : CombKind → Except Value Value → Value
  | .allK, r => payloadOf r
  | .allSettledK, r => outcomeRec r

/-- `Promise.all` over already-settled inputs: a fulfilled prefix with
values `vs`, then a first rejection `e`, then arbitrary further
outcomes. -/
def allMixedProg (vs : List Value) (e : Value) (rest : List (Except Value Value)) : Prog :=
  mkSettled (vs.map .ok ++ .error e :: rest) fun ps => .allP ps fun _ => .nop

/-- The strict (dueTime, insertion sequence) lexicographic order in which
the TaskQueue hands out macrotasks. -/
def lexLT (a b : Task) : Prop :=
  a.dueTime < b.dueTime ∨ (a.dueTime = b.dueTime ∧ a.seqn < b.seqn)

/-- Strict insertion-sequence order. -/
def seqLT (a b : Task) : Prop :=
  a.seqn < b.seqn

/-! ## Basic lemmas about the queues -/

/-- Draining only ever returns with the MicrotaskQueue empty: microtasks
enqueued while draining are themselves drained. -/
theorem drainMicro_empty : ∀ (fuel : Nat) (s s1 : LoopState),
    drainMicro fuel s = some s1 → s1.micro = [] := by
  intro fuel
  induction fuel with
  | zero =>
      intro s s1 h
      cases hm : s.micro with
      | nil =>
          unfold drainMicro at h
          rw [hm] at h
          simp only [Option.some.injEq] at h
          exact h ▸ hm
      | cons m rest =>
          unfold drainMicro at h
          rw [hm] at h
          simp at h
  | succ n ih =>
      intro s s1 h
      cases hm : s.micro with
      | nil =>
          unfold drainMicro at h
          rw [hm] at h
          simp only [Option.some.injEq] at h
          exact h ▸ hm
      | cons m rest =>
          unfold drainMicro at h
          rw [hm] at h
          exact ih _ _ h

/-- A drained state drains to itself under any fuel. -/
theorem drainMicro_nil (fuel : Nat) (s : LoopState) (h : s.micro = []) :
    drainMicro fuel s = some s := by
  cases fuel with
  | zero => unfold drainMicro; rw [h]
  | succ n => unfold drainMicro; rw [h]

/-- `popNextDue` never returns a canceled task: a canceled timer callback
can never be executed by the loop. -/
theorem popNextDue_not_canceled : ∀ (c : Int) (l : List Task) (x : Task) (rest : List Task),
    popNextDue c l = some (x, rest) → x.canceled = false := by
  intro c l
  induction l with
  | nil => intro x rest h; simp [popNextDue] at h
  | cons a as ih =>
      intro x rest h
      unfold popNextDue at h
      by_cases hc : a.canceled = false ∧ a.dueTime ≤ c
      · rw [if_pos hc] at h
        cases hrec : popNextDue c as with
        | some pr =>
            rw [hrec] at h
            obtain ⟨y, ys⟩ := pr
            dsimp only at h
            by_cases hle : a.dueTime ≤ y.dueTime
            · rw [if_pos hle] at h
              simp only [Option.some.injEq, Prod.mk.injEq] at h
              exact h.1 ▸ hc.1
            · rw [if_neg hle] at h
              simp only [Option.some.injEq, Prod.mk.injEq] at h
              exact h.1 ▸ ih y ys hrec
        | none =>
            rw [hrec] at h
            simp only [Option.some.injEq, Prod.mk.injEq] at h
            exact h.1 ▸ hc.1
      · rw [if_neg hc] at h
        cases hrec : popNextDue c as with
        | none => rw [hrec] at h; simp at h
        | some pr =>
            rw [hrec] at h
            obtain ⟨y, ys⟩ := pr
            simp only [Option.map_some', Option.some.injEq, Prod.mk.injEq] at h
            exact h.1 ▸ ih y ys hrec

/-! ## Claim theorems: concrete scenarios and local error semantics -/

/-! ## TaskQueue ordering machinery (C1, C3) -/

theorem popNextDue_ok : ∀ (c : Int) (l : List Task) (x : Task) (rest : List Task),
    popNextDue c l = some (x, rest) →
    x.canceled = false ∧ x.dueTime ≤ c ∧ rest.Sublist l ∧ (x :: rest).Perm l := by
  intro c l
  induction l with
  | nil => intro x rest h; simp [popNextDue] at h
  | cons a as ih =>
      intro x rest h
      unfold popNextDue at h
      by_cases hc : a.canceled = false ∧ a.dueTime ≤ c
      · rw [if_pos hc] at h
        cases hrec : popNextDue c as with
        | some pr =>
            rw [hrec] at h
            obtain ⟨y, ys⟩ := pr
            dsimp only at h
            obtain ⟨hy1, hy2, hy3, hy4⟩ := ih y ys hrec
            by_cases hle : a.dueTime ≤ y.dueTime
            · rw [if_pos hle] at h
              simp only [Option.some.injEq, Prod.mk.injEq] at h
              obtain ⟨h1, h2⟩ := h
              subst h1
              subst h2
              exact ⟨hc.1, hc.2, List.sublist_cons_self a as, List.Perm.refl _⟩
            · rw [if_neg hle] at h
              simp only [Option.some.injEq, Prod.mk.injEq] at h
              obtain ⟨h1, h2⟩ := h
              subst h1
              subst h2
              refine ⟨hy1, hy2, List.Sublist.cons₂ a hy3, ?_⟩
              exact List.Perm.trans (List.Perm.swap a y ys) (List.Perm.cons a hy4)
        | none =>
            rw [hrec] at h
            simp only [Option.some.injEq, Prod.mk.injEq] at h
            obtain ⟨h1, h2⟩ := h
            subst h1
            subst h2
            exact ⟨hc.1, hc.2, List.sublist_cons_self a as, List.Perm.refl _⟩
      · rw [if_neg hc] at h
        cases hrec : popNextDue c as with
        | none => rw [hrec] at h; simp at h
        | some pr =>
            rw [hrec] at h
            obtain ⟨y, ys⟩ := pr
            simp only [Option.map_some', Option.some.injEq, Prod.mk.injEq] at h
            obtain ⟨h1, h2⟩ := h
            subst h1
            subst h2
            obtain ⟨hy1, hy2, hy3, hy4⟩ := ih y ys hrec
            refine ⟨hy1, hy2, List.Sublist.cons₂ a hy3, ?_⟩
            exact List.Perm.trans (List.Perm.swap a y ys) (List.Perm.cons a hy4)

theorem popNextDue_mem {c : Int} {l : List Task} {x : Task} {rest : List Task}
    (h : popNextDue c l = some (x, rest)) : x ∈ l :=
  ((popNextDue_ok c l x rest h).2.2.2).mem_iff.mp (List.mem_cons_self x rest)

/-- When nothing is due, every live task is strictly later than the bound. -/
theorem popNextDue_none_lt : ∀ (c : Int) (l : List Task), popNextDue c l = none →
    ∀ z ∈ l, z.canceled = false → c < z.dueTime := by
  intro c l
  induction l with
  | nil => intro _ z hz; simp at hz
  | cons a as ih =>
      intro h z hz hzc
      unfold popNextDue at h
      by_cases hc : a.canceled = false ∧ a.dueTime ≤ c
      · rw [if_pos hc] at h
        cases hrec : popNextDue c as with
        | some pr =>
            rw [hrec] at h
            obtain ⟨y, ys⟩ := pr
            dsimp only at h
            split at h <;> simp at h
        | none => rw [hrec] at h; simp at h
      · rw [if_neg hc] at h
        cases hrec : popNextDue c as with
        | some pr => rw [hrec] at h; simp at h
        | none =>
            rcases List.mem_cons.mp hz with rfl | hz2
            · have hd : ¬ z.dueTime ≤ c := fun hd => hc ⟨hzc, hd⟩
              exact not_le.mp hd
            · exact ih hrec z hz2 hzc

/-- The popped task is due no later than any other live, due task. -/
theorem popNextDue_le : ∀ (c : Int) (l : List Task) (x : Task) (rest : List Task),
    popNextDue c l = some (x, rest) →
    ∀ z ∈ l, z.canceled = false → z.dueTime ≤ c → x.dueTime ≤ z.dueTime := by
  intro c l
  induction l with
  | nil => intro x rest h; simp [popNextDue] at h
  | cons a as ih =>
      intro x rest h z hz hzc hzd
      unfold popNextDue at h
      by_cases hc : a.canceled = false ∧ a.dueTime ≤ c
      · rw [if_pos hc] at h
        cases hrec : popNextDue c as with
        | some pr =>
            rw [hrec] at h
            obtain ⟨y, ys⟩ := pr
            dsimp only at h
            by_cases hle : a.dueTime ≤ y.dueTime
            · rw [if_pos hle] at h
              simp only [Option.some.injEq, Prod.mk.injEq] at h
              obtain ⟨h1, h2⟩ := h
              subst h1
              rcases List.mem_cons.mp hz with rfl | hz2
              · exact le_refl _
              · exact le_trans hle (ih y ys hrec z hz2 hzc hzd)
            · rw [if_neg hle] at h
              simp only [Option.some.injEq, Prod.mk.injEq] at h
              obtain ⟨h1, h2⟩ := h
              subst h1
              rcases List.mem_cons.mp hz with rfl | hz2
              · exact le_of_lt (not_le.mp hle)
              · exact ih y ys hrec z hz2 hzc hzd
        | none =>
            rw [hrec] at h
            simp only [Option.some.injEq, Prod.mk.injEq] at h
            obtain ⟨h1, h2⟩ := h
            subst h1
            rcases List.mem_cons.mp hz with rfl | hz2
            · exact le_refl _
            · exact absurd hzd (not_le.mpr (popNextDue_none_lt c as hrec z hz2 hzc))
      · rw [if_neg hc] at h
        cases hrec : popNextDue c as with
        | none => rw [hrec] at h; simp at h
        | some pr =>
            rw [hrec] at h
            obtain ⟨y, ys⟩ := pr
            simp only [Option.map_some', Option.some.injEq, Prod.mk.injEq] at h
            obtain ⟨h1, h2⟩ := h
            subst h1
            rcases List.mem_cons.mp hz with rfl | hz2
            · exact absurd ⟨hzc, hzd⟩ hc
            · exact ih y ys hrec z hz2 hzc hzd

/-- On an insertion-ordered queue the popped task is lexicographically
(dueTime, insertion) before every live task left behind. -/
theorem popNextDue_minlex : ∀ (c : Int) (l : List Task) (x : Task) (rest : List Task),
    l.Pairwise seqLT → popNextDue c l = some (x, rest) →
    ∀ z ∈ rest, z.canceled = false → lexLT x z := by
  intro c l
  induction l with
  | nil => intro x rest _ h; simp [popNextDue] at h
  | cons a as ih =>
      intro x rest hsort h z hz hzc
      obtain ⟨ha, hsort1⟩ := List.pairwise_cons.mp hsort
      unfold popNextDue at h
      by_cases hc : a.canceled = false ∧ a.dueTime ≤ c
      · rw [if_pos hc] at h
        cases hrec : popNextDue c as with
        | some pr =>
            rw [hrec] at h
            obtain ⟨y, ys⟩ := pr
            dsimp only at h
            by_cases hle : a.dueTime ≤ y.dueTime
            · rw [if_pos hle] at h
              simp only [Option.some.injEq, Prod.mk.injEq] at h
              obtain ⟨h1, h2⟩ := h
              subst h1
              subst h2
              by_cases hzd : z.dueTime ≤ c
              · have hyz := popNextDue_le c as y ys hrec z hz hzc hzd
                rcases lt_or_eq_of_le (le_trans hle hyz) with hlt | heq
                · exact Or.inl hlt
                · exact Or.inr ⟨heq, ha z hz⟩
              · exact Or.inl (lt_of_le_of_lt hc.2 (not_le.mp hzd))
            · rw [if_neg hle] at h
              simp only [Option.some.injEq, Prod.mk.injEq] at h
              obtain ⟨h1, h2⟩ := h
              subst h1
              subst h2
              rcases List.mem_cons.mp hz with rfl | hz2
              · exact Or.inl (not_le.mp hle)
              · exact ih y ys hsort1 hrec z hz2 hzc
        | none =>
            rw [hrec] at h
            simp only [Option.some.injEq, Prod.mk.injEq] at h
            obtain ⟨h1, h2⟩ := h
            subst h1
            subst h2
            exact Or.inl (lt_of_le_of_lt hc.2 (popNextDue_none_lt c as hrec z hz hzc))
      · rw [if_neg hc] at h
        cases hrec : popNextDue c as with
        | none => rw [hrec] at h; simp at h
        | some pr =>
            rw [hrec] at h
            obtain ⟨y, ys⟩ := pr
            simp only [Option.map_some', Option.some.injEq, Prod.mk.injEq] at h
            obtain ⟨h1, h2⟩ := h
            subst h1
            subst h2
            rcases List.mem_cons.mp hz with rfl | hz2
            · have hya := (popNextDue_ok c as y ys hrec).2.1
              have hd : ¬ z.dueTime ≤ c := fun hd => hc ⟨hzc, hd⟩
              exact Or.inl (lt_of_le_of_lt hya (not_le.mp hd))
            · exact ih y ys hsort1 hrec z hz2 hzc

/-- If peeking finds no due time, every queued task is canceled. -/
theorem peekNextDue_none : ∀ (l : List Task), peekNextDue l = none →
    ∀ z ∈ l, z.canceled = true := by
  intro l
  induction l with
  | nil => intro _ z hz; simp at hz
  | cons a as ih =>
      intro h z hz
      unfold peekNextDue at h
      cases hrec : peekNextDue as with
      | none =>
          rw [hrec] at h
          dsimp only at h
          by_cases hca : a.canceled = true
          · rcases List.mem_cons.mp hz with rfl | hz2
            · exact hca
            · exact ih hrec z hz2
          · rw [if_neg hca] at h
            simp at h
      | some d =>
          rw [hrec] at h
          dsimp only at h
          split at h <;> simp at h

/-- A peeked due time always admits a successful pop at that time. -/
theorem peekNextDue_pop : ∀ (l : List Task) (d : Int), peekNextDue l = some d →
    (popNextDue d l).isSome = true := by
  intro l
  induction l with
  | nil => intro d h; simp [peekNextDue] at h
  | cons a as ih =>
      intro d h
      unfold peekNextDue at h
      have hpopall : ∀ (e : Int), (a.canceled = false ∧ a.dueTime ≤ e) →
          (popNextDue e (a :: as)).isSome = true := by
        intro e he
        unfold popNextDue
        rw [if_pos he]
        cases hr2 : popNextDue e as with
        | some pr =>
            obtain ⟨y, ys⟩ := pr
            dsimp only
            split <;> rfl
        | none => rfl
      cases hrec : peekNextDue as with
      | none =>
          rw [hrec] at h
          dsimp only at h
          by_cases hca : a.canceled = true
          · rw [if_pos hca] at h
            cases h
          · rw [if_neg hca] at h
            simp only [Option.some.injEq] at h
            have hcf : a.canceled = false := by
              cases hcv : a.canceled
              · rfl
              · exact absurd hcv hca
            exact hpopall d ⟨hcf, le_of_eq h⟩
      | some d2 =>
          rw [hrec] at h
          dsimp only at h
          by_cases hca : a.canceled = true
          · rw [if_pos hca] at h
            simp only [Option.some.injEq] at h
            subst h
            unfold popNextDue
            rw [if_neg (by simp [hca])]
            obtain ⟨pr, hpr⟩ := Option.isSome_iff_exists.mp (ih _ hrec)
            rw [hpr]
            rfl
          · rw [if_neg hca] at h
            simp only [Option.some.injEq] at h
            have hcf : a.canceled = false := by
              cases hcv : a.canceled
              · rfl
              · exact absurd hcv hca
            by_cases hle : a.dueTime ≤ d2
            · exact h ▸ hpopall (min a.dueTime d2) ⟨hcf, le_min (le_refl _) hle⟩
            · have hmin : min a.dueTime d2 = d2 := min_eq_right (le_of_lt (not_le.mp hle))
              rw [hmin] at h
              subst h
              unfold popNextDue
              rw [if_neg (fun hcon => hle (hcon.2))]
              obtain ⟨pr, hpr⟩ := Option.isSome_iff_exists.mp (ih _ hrec)
              rw [hpr]
              rfl

/-- Every task the macrotask phase hands out comes from the queue. -/
theorem drainTasks_mem : ∀ (fuel : Nat) (c : Int) (ts : List Task) (z : Task),
    z ∈ drainTasks fuel c ts → z ∈ ts := by
  intro fuel
  induction fuel with
  | zero => intro c ts z h; simp [drainTasks] at h
  | succ n ih =>
      intro c ts z h
      unfold drainTasks at h
      cases hp : popNextDue c ts with
      | some pr =>
          rw [hp] at h
          obtain ⟨t, rest⟩ := pr
          dsimp only at h
          rcases List.mem_cons.mp h with rfl | h2
          · exact popNextDue_mem hp
          · exact ((popNextDue_ok c ts t rest hp).2.2.1).subset (ih c rest z h2)
      | none =>
          rw [hp] at h
          cases hq : peekNextDue ts with
          | none => rw [hq] at h; simp at h
          | some d =>
              rw [hq] at h
              dsimp only at h
              cases hp2 : popNextDue d ts with
              | some pr =>
                  rw [hp2] at h
                  obtain ⟨t, rest⟩ := pr
                  dsimp only at h
                  rcases List.mem_cons.mp h with rfl | h2
                  · exact popNextDue_mem hp2
                  · exact ((popNextDue_ok d ts t rest hp2).2.2.1).subset (ih d rest z h2)
              | none => rw [hp2] at h; simp at h

/-- On an insertion-ordered, live queue the macrotask phase fires tasks in
strictly increasing (dueTime, insertion sequence) order. -/
theorem drainTasks_pairwise : ∀ (fuel : Nat) (c : Int) (ts : List Task),
    ts.Pairwise seqLT → (∀ t ∈ ts, t.canceled = false) →
    (drainTasks fuel c ts).Pairwise lexLT := by
  intro fuel
  induction fuel with
  | zero => intro c ts _ _; unfold drainTasks; exact List.Pairwise.nil
  | succ n ih =>
      intro c ts hsort hnc
      unfold drainTasks
      cases hp : popNextDue c ts with
      | some pr =>
          obtain ⟨t, rest⟩ := pr
          dsimp only
          have hsub := (popNextDue_ok c ts t rest hp).2.2.1
          refine List.pairwise_cons.mpr ⟨?_, ?_⟩
          · intro z hz
            have hzrest := drainTasks_mem n c rest z hz
            exact popNextDue_minlex c ts t rest hsort hp z hzrest
              (hnc z (hsub.subset hzrest))
          · exact ih c rest (hsort.sublist hsub) (fun z hz => hnc z (hsub.subset hz))
      | none =>
          cases hq : peekNextDue ts with
          | none => exact List.Pairwise.nil
          | some d =>
              dsimp only
              cases hp2 : popNextDue d ts with
              | some pr =>
                  obtain ⟨t, rest⟩ := pr
                  dsimp only
                  have hsub := (popNextDue_ok d ts t rest hp2).2.2.1
                  refine List.pairwise_cons.mpr ⟨?_, ?_⟩
                  · intro z hz
                    have hzrest := drainTasks_mem n d rest z hz
                    exact popNextDue_minlex d ts t rest hsort hp2 z hzrest
                      (hnc z (hsub.subset hzrest))
                  · exact ih d rest (hsort.sublist hsub) (fun z hz => hnc z (hsub.subset hz))
              | none => exact List.Pairwise.nil

/-- With enough fuel the macrotask phase fires every live task exactly
once. -/
theorem drainTasks_perm : ∀ (fuel : Nat) (c : Int) (ts : List Task),
    (∀ t ∈ ts, t.canceled = false) → ts.length < fuel →
    (drainTasks fuel c ts).Perm ts := by
  intro fuel
  induction fuel with
  | zero => intro c ts _ h; omega
  | succ n ih =>
      intro c ts hnc hlen
      unfold drainTasks
      cases hp : popNextDue c ts with
      | some pr =>
          obtain ⟨t, rest⟩ := pr
          dsimp only
          obtain ⟨h1, h2, hsub, hperm⟩ := popNextDue_ok c ts t rest hp
          have hlr : rest.length < n := by
            have hl := hperm.length_eq
            simp only [List.length_cons] at hl
            omega
          have hih := ih c rest (fun z hz => hnc z (hsub.subset hz)) hlr
          exact List.Perm.trans (List.Perm.cons t hih) hperm
      | none =>
          cases hq : peekNextDue ts with
          | some d =>
              dsimp only
              cases hp2 : popNextDue d ts with
              | some pr =>
                  obtain ⟨t, rest⟩ := pr
                  dsimp only
                  obtain ⟨h1, h2, hsub, hperm⟩ := popNextDue_ok d ts t rest hp2
                  have hlr : rest.length < n := by
                    have hl := hperm.length_eq
                    simp only [List.length_cons] at hl
                    omega
                  have hih := ih d rest (fun z hz => hnc z (hsub.subset hz)) hlr
                  exact List.Perm.trans (List.Perm.cons t hih) hperm
              | none =>
                  have := peekNextDue_pop ts d hq
                  rw [hp2] at this
                  cases this
          | none =>
              cases ts with
              | nil => exact List.Perm.refl _
              | cons a as =>
                  have h1 := peekNextDue_none _ hq a (List.mem_cons_self a as)
                  have h2 := hnc a (List.mem_cons_self a as)
                  rw [h1] at h2
                  cases h2

/-- Running a pure logging task only appends its line. -/
theorem runTask_log (t : Task) (m : String) (h : t.body = .log m) (s : LoopState) :
    runTask t s = { s with out := s.out ++ [m] } := by
  unfold runTask
  rw [h]
  rfl

/-- The loop on a drained state with a queue of live logging tasks runs
them in exactly the `drainTasks` order. -/
theorem loopTicks_logTasks : ∀ (fuel : Nat) (s : LoopState),
    s.micro = [] → (∀ t ∈ s.tasks, logTask t) → s.tasks.length < fuel →
    ∃ s1, loopTicks fuel s = some s1 ∧
      s1.out = s.out ++ (drainTasks fuel s.clock s.tasks).map (fun t => bodyName t.body) := by
  intro fuel
  induction fuel with
  | zero => intro s _ _ h; omega
  | succ n ih =>
      intro s hm hlt hlen
      cases hp0 : popNextDue s.clock s.tasks with
      | some pr =>
          obtain ⟨t, rest⟩ := pr
          have hnc : nextClock s = s.clock := by unfold nextClock; rw [hp0]
          have htick : tick (n + 1) s =
              some (true, runTask t { s with clock := s.clock, tasks := rest }) := by
            unfold tick
            rw [drainMicro_nil _ _ hm]
            dsimp only
            rw [hnc, hp0]
          obtain ⟨m, hbody⟩ := (hlt t (popNextDue_mem hp0)).1
          have hrt : runTask t { s with clock := s.clock, tasks := rest } =
              { s with clock := s.clock, tasks := rest, out := s.out ++ [m] } :=
            runTask_log t m hbody _
          have hsub := (popNextDue_ok _ _ _ _ hp0).2.2.1
          have hperm := (popNextDue_ok _ _ _ _ hp0).2.2.2
          have hlen2 : rest.length < n := by
            have hl := hperm.length_eq
            simp only [List.length_cons] at hl
            omega
          obtain ⟨s1, hloop, hout⟩ :=
            ih { s with clock := s.clock, tasks := rest, out := s.out ++ [m] }
              hm (fun z hz => hlt z (hsub.subset hz)) hlen2
          refine ⟨s1, ?_, ?_⟩
          · unfold loopTicks
            rw [htick]
            dsimp only
            rw [hrt]
            exact hloop
          · rw [hout]
            have hdt : drainTasks (n + 1) s.clock s.tasks = t :: drainTasks n s.clock rest := by
              simp only [drainTasks, hp0]
            rw [hdt]
            simp [hbody, bodyName]
      | none =>
          cases hq : peekNextDue s.tasks with
          | some d =>
              have hnc : nextClock s = d := by
                unfold nextClock
                rw [hp0, hq]
                rfl
              obtain ⟨⟨t, rest⟩, hp2⟩ :=
                Option.isSome_iff_exists.mp (peekNextDue_pop s.tasks d hq)
              have htick : tick (n + 1) s =
                  some (true, runTask t { s with clock := d, tasks := rest }) := by
                unfold tick
                rw [drainMicro_nil _ _ hm]
                dsimp only
                rw [hnc, hp2]
              obtain ⟨m, hbody⟩ := (hlt t (popNextDue_mem hp2)).1
              have hrt : runTask t { s with clock := d, tasks := rest } =
                  { s with clock := d, tasks := rest, out := s.out ++ [m] } :=
                runTask_log t m hbody _
              have hsub := (popNextDue_ok _ _ _ _ hp2).2.2.1
              have hperm := (popNextDue_ok _ _ _ _ hp2).2.2.2
              have hlen2 : rest.length < n := by
                have hl := hperm.length_eq
                simp only [List.length_cons] at hl
                omega
              obtain ⟨s1, hloop, hout⟩ :=
                ih { s with clock := d, tasks := rest, out := s.out ++ [m] }
                  hm (fun z hz => hlt z (hsub.subset hz)) hlen2
              refine ⟨s1, ?_, ?_⟩
              · unfold loopTicks
                rw [htick]
                dsimp only
                rw [hrt]
                exact hloop
              · rw [hout]
                have hdt : drainTasks (n + 1) s.clock s.tasks = t :: drainTasks n d rest := by
                  simp only [drainTasks, hp0, hq, hp2]
                rw [hdt]
                simp [hbody, bodyName]
          | none =>
              have hnc : nextClock s = s.clock := by
                unfold nextClock
                rw [hp0, hq]
                rfl
              have htick : tick (n + 1) s = some (false, { s with clock := s.clock }) := by
                unfold tick
                rw [drainMicro_nil _ _ hm]
                dsimp only
                rw [hnc, hp0]
              refine ⟨s, ?_, ?_⟩
              · unfold loopTicks
                rw [htick]
              · have hdt : drainTasks (n + 1) s.clock s.tasks = [] := by
                  simp only [drainTasks, hp0, hq]
                rw [hdt]
                simp

/-- Draining a queue of pure logging microtasks empties it and appends the
names in submission order. -/
theorem drainMicro_logs : ∀ (ms : List String) (fuel : Nat) (s : LoopState),
    s.micro = ms.map (fun m => Micro.mrun (.log m)) → ms.length ≤ fuel →
    drainMicro fuel s = some { s with micro := [], out := s.out ++ ms } := by
  intro ms
  induction ms with
  | nil =>
      intro fuel s hm _
      simp only [List.map_nil] at hm
      rw [drainMicro_nil fuel s hm]
      rw [List.append_nil]
      cases s
      simp only at hm
      subst hm
      rfl
  | cons m ms ih =>
      intro fuel s hm hlen
      cases fuel with
      | zero =>
          simp only [List.length_cons] at hlen
          omega
      | succ n =>
          simp only [drainMicro, hm, List.map_cons]
          have hrm : runMicro (.mrun (.log m))
              { s with micro := List.map (fun m => Micro.mrun (.log m)) ms } =
              { s with micro := List.map (fun m => Micro.mrun (.log m)) ms,
                       out := s.out ++ [m] } := rfl
          rw [hrm]
          rw [ih n _ rfl (by simp only [List.length_cons] at hlen; omega)]
          have hap : (s.out ++ [m]) ++ ms = s.out ++ m :: ms := by simp
          simp only [hap]

/-- After a successful full drain, continuing the loop from the original
state and from the drained state is the same. -/
theorem loopTicks_drained (n : Nat) (s sD : LoopState)
    (h : drainMicro (n + 1) s = some sD) :
    loopTicks (n + 1) s = loopTicks (n + 1) sD := by
  have hD : drainMicro (n + 1) sD = some sD :=
    drainMicro_nil _ _ (drainMicro_empty _ _ _ h)
  unfold loopTicks
  unfold tick
  rw [h, hD]

/-- A queue of logging microtasks and a queue of live logging tasks: the
loop prints all microtask names first, then the macrotask names in
`drainTasks` order. -/
theorem loopTicks_mixed (ms : List String) (n : Nat) (s : LoopState)
    (hm : s.micro = ms.map (fun m => Micro.mrun (.log m)))
    (ht : ∀ t ∈ s.tasks, logTask t)
    (hlm : ms.length ≤ n + 1) (hlt : s.tasks.length < n + 1) :
    ∃ s1, loopTicks (n + 1) s = some s1 ∧
      s1.out = s.out ++ ms ++
        (drainTasks (n + 1) s.clock s.tasks).map (fun t => bodyName t.body) := by
  have hd := drainMicro_logs ms (n + 1) s hm hlm
  rw [loopTicks_drained n s _ hd]
  obtain ⟨s1, h1, h2⟩ :=
    loopTicks_logTasks (n + 1) { s with micro := [], out := s.out ++ ms } rfl ht hlt
  exact ⟨s1, h1, h2⟩

/-- Executing the submission unit queues exactly the submitted microtasks
and timer tasks, in submission order. -/
theorem execProg_submit : ∀ (subs : List Sub) (s : LoopState),
    execProg (submitProg subs) s =
      ({ s with nextSeq := s.nextSeq + (macroNames subs).length,
                tasks := s.tasks ++ mkSubTasks subs s.clock s.nextSeq,
                micro := s.micro ++ (microNames subs).map (fun m => Micro.mrun (.log m)) },
        .ok .vunit) := by
  intro subs
  induction subs with
  | nil =>
      intro s
      simp only [submitProg, execProg, macroNames, microNames, mkSubTasks, List.length_nil,
        List.map_nil, List.append_nil, Nat.add_zero]
  | cons sub rest ih =>
      cases sub with
      | mic m =>
          intro s
          simp only [submitProg, execProg, macroNames, microNames, mkSubTasks, List.map_cons]
          rw [ih]
          simp [List.append_assoc]
      | tim d m =>
          intro s
          simp only [submitProg, execProg, macroNames, microNames, mkSubTasks, List.length_cons]
          rw [ih]
          simp [List.append_assoc, Nat.add_assoc, Nat.add_comm, Nat.add_left_comm]

theorem mkSubTasks_names : ∀ (subs : List Sub) (c : Int) (q : Nat),
    (mkSubTasks subs c q).map (fun t => bodyName t.body) = macroNames subs := by
  intro subs
  induction subs with
  | nil => intro c q; rfl
  | cons sub rest ih =>
      intro c q
      cases sub with
      | mic m => simp only [mkSubTasks, macroNames]; exact ih c q
      | tim d m =>
          simp only [mkSubTasks, macroNames, List.map_cons]
          rw [ih]
          rfl

theorem mkSubTasks_log : ∀ (subs : List Sub) (c : Int) (q : Nat),
    ∀ t ∈ mkSubTasks subs c q, logTask t := by
  intro subs
  induction subs with
  | nil => intro c q t ht; simp [mkSubTasks] at ht
  | cons sub rest ih =>
      intro c q t ht
      cases sub with
      | mic m => exact ih c q t ht
      | tim d m =>
          simp only [mkSubTasks, List.mem_cons] at ht
          rcases ht with rfl | ht2
          · exact ⟨⟨m, rfl⟩, rfl⟩
          · exact ih c (q + 1) t ht2

theorem mkSubTasks_seq_ge : ∀ (subs : List Sub) (c : Int) (q : Nat),
    ∀ t ∈ mkSubTasks subs c q, q ≤ t.seqn := by
  intro subs
  induction subs with
  | nil => intro c q t ht; simp [mkSubTasks] at ht
  | cons sub rest ih =>
      intro c q t ht
      cases sub with
      | mic m => exact ih c q t ht
      | tim d m =>
          simp only [mkSubTasks, List.mem_cons] at ht
          rcases ht with rfl | ht2
          · exact le_refl _
          · exact le_trans (Nat.le_succ q) (ih c (q + 1) t ht2)

theorem mkSubTasks_sorted : ∀ (subs : List Sub) (c : Int) (q : Nat),
    (mkSubTasks subs c q).Pairwise seqLT := by
  intro subs
  induction subs with
  | nil => intro c q; exact List.Pairwise.nil
  | cons sub rest ih =>
      intro c q
      cases sub with
      | mic m => exact ih c q
      | tim d m =>
          refine List.pairwise_cons.mpr ⟨?_, ih c (q + 1)⟩
          intro z hz
          exact lt_of_lt_of_le (Nat.lt_succ_self q) (mkSubTasks_seq_ge rest c (q + 1) z hz)

theorem mkSubTasks_len : ∀ (subs : List Sub) (c : Int) (q : Nat),
    (mkSubTasks subs c q).length ≤ subs.length := by
  intro subs
  induction subs with
  | nil => intro c q; exact le_refl _
  | cons sub rest ih =>
      intro c q
      cases sub with
      | mic m =>
          simp only [mkSubTasks, List.length_cons]
          exact le_trans (ih c q) (Nat.le_succ _)
      | tim d m =>
          simp only [mkSubTasks, List.length_cons]
          exact Nat.succ_le_succ (ih c (q + 1))

theorem microNames_len : ∀ (subs : List Sub), (microNames subs).length ≤ subs.length := by
  intro subs
  induction subs with
  | nil => exact le_refl _
  | cons sub rest ih =>
      cases sub with
      | mic m =>
          simp only [microNames, List.length_cons]
          exact Nat.succ_le_succ ih
      | tim d m =>
          simp only [microNames, List.length_cons]
          exact le_trans ih (Nat.le_succ _)

/-- Executing the timer-scheduling unit from a zero clock queues the timer
tasks with clamped due times and index payloads. -/
theorem execProg_timers : ∀ (ds : List Int) (i : Nat) (s : LoopState),
    s.nextSeq = i → s.clock = 0 →
    execProg (timersProgAux ds i) s =
      ({ s with nextSeq := i + ds.length, tasks := s.tasks ++ timerTasks ds i },
        .ok .vunit) := by
  intro ds
  induction ds with
  | nil =>
      intro i s h1 h2
      simp only [timersProgAux, execProg, timerTasks, List.length_nil, List.append_nil]
      rw [← h1]
      simp
  | cons d ds ih =>
      intro i s h1 h2
      simp only [timersProgAux, execProg, timerTasks, List.length_cons]
      rw [ih (i + 1) _ (by simp [h1]) (by simp [h2])]
      simp [h1, h2, List.append_assoc, Nat.add_assoc, Nat.add_comm, Nat.add_left_comm]

theorem timerTasks_mem : ∀ (ds : List Int) (i : Nat) (t : Task), t ∈ timerTasks ds i →
    ∃ j, j < ds.length ∧ t.seqn = i + j ∧ t.dueTime = max (ds.getD j 0) 0 ∧
      t.body = .log (toString (i + j)) ∧ t.canceled = false := by
  intro ds
  induction ds with
  | nil => intro i t ht; simp [timerTasks] at ht
  | cons d ds ih =>
      intro i t ht
      simp only [timerTasks, List.mem_cons] at ht
      rcases ht with rfl | ht2
      · exact ⟨0, by simp, by simp, by simp [List.getD], by simp, rfl⟩
      · obtain ⟨j, hj, h1, h2, h3, h4⟩ := ih (i + 1) t ht2
        refine ⟨j + 1, by simp only [List.length_cons]; omega, ?_, ?_, ?_, h4⟩
        · rw [h1]; omega
        · rw [h2]; simp [List.getD]
        · rw [h3]
          have : i + 1 + j = i + (j + 1) := by omega
          rw [this]

theorem timerTasks_log : ∀ (ds : List Int) (i : Nat),
    ∀ t ∈ timerTasks ds i, logTask t := by
  intro ds i t ht
  obtain ⟨j, _, _, _, h3, h4⟩ := timerTasks_mem ds i t ht
  exact ⟨⟨toString (i + j), h3⟩, h4⟩

theorem timerTasks_seq_ge : ∀ (ds : List Int) (i : Nat),
    ∀ t ∈ timerTasks ds i, i ≤ t.seqn := by
  intro ds i t ht
  obtain ⟨j, _, h1, _, _, _⟩ := timerTasks_mem ds i t ht
  omega

theorem timerTasks_sorted : ∀ (ds : List Int) (i : Nat),
    (timerTasks ds i).Pairwise seqLT := by
  intro ds
  induction ds with
  | nil => intro i; exact List.Pairwise.nil
  | cons d ds ih =>
      intro i
      refine List.pairwise_cons.mpr ⟨?_, ih (i + 1)⟩
      intro z hz
      have := timerTasks_seq_ge ds (i + 1) z hz
      show (⟨i, max d 0, .log (toString i), false⟩ : Task).seqn < z.seqn
      simp only
      omega

theorem timerTasks_len : ∀ (ds : List Int) (i : Nat), (timerTasks ds i).length = ds.length := by
  intro ds
  induction ds with
  | nil => intro i; rfl
  | cons d ds ih =>
      intro i
      simp only [timerTasks, List.length_cons, ih]

theorem timerTasks_map_seqn : ∀ (ds : List Int) (i : Nat),
    (timerTasks ds i).map (fun t => t.seqn) = List.range' i ds.length := by
  intro ds
  induction ds with
  | nil => intro i; rfl
  | cons d ds ih =>
      intro i
      simp only [timerTasks, List.map_cons, ih, List.range']

/-- C1: for every interleaving of microtask and macrotask submissions made
during one synchronous unit, every microtask name is printed before any
macrotask name — the log is the microtask names in submission order
followed by a permutation of the macrotask names; and structurally, every
EventLoop iteration first drains the MicrotaskQueue to empty and then runs
at most one popped macrotask. -/
theorem c1_all_micros_before_any_macrotask (subs : List Sub) :
    (∃ s1 rest, runToCompletion (subs.length + 1) (submitProg subs) = some s1 ∧
        s1.out = microNames subs ++ rest ∧ rest.Perm (macroNames subs)) ∧
    (∀ (fuel : Nat) (s : LoopState) (r : Bool × LoopState), tick fuel s = some r →
        ∃ sD, drainMicro fuel s = some sD ∧ sD.micro = [] ∧
          ((∃ t rest2, popNextDue (nextClock sD) sD.tasks = some (t, rest2) ∧
              r = (true, runTask t { sD with clock := nextClock sD, tasks := rest2 })) ∨
            (popNextDue (nextClock sD) sD.tasks = none ∧
              r = (false, { sD with clock := nextClock sD })))) := by
  constructor
  · have hexec := execProg_submit subs LoopState.initial
    unfold runToCompletion
    rw [hexec]
    dsimp only
    have hm : ({ LoopState.initial with
        nextSeq := LoopState.initial.nextSeq + (macroNames subs).length,
        tasks := LoopState.initial.tasks ++ mkSubTasks subs LoopState.initial.clock
          LoopState.initial.nextSeq,
        micro := LoopState.initial.micro ++
          (microNames subs).map (fun m => Micro.mrun (.log m)) } : LoopState).micro =
        (microNames subs).map (fun m => Micro.mrun (.log m)) := by
      simp [LoopState.initial]
    obtain ⟨s1, hloop, hout⟩ :=
      loopTicks_mixed (microNames subs) subs.length _ hm
        (by
          intro t ht
          simp only [LoopState.initial, List.nil_append] at ht
          exact mkSubTasks_log subs 0 0 t ht)
        (le_trans (microNames_len subs) (Nat.le_succ _))
        (by
          have h1 := mkSubTasks_len subs (0 : Int) 0
          simp only [LoopState.initial, List.nil_append]
          omega)
    refine ⟨s1,
      (drainTasks (subs.length + 1) (0 : Int) (mkSubTasks subs 0 0)).map
        (fun t => bodyName t.body), hloop, ?_, ?_⟩
    · rw [hout]
      simp [LoopState.initial]
    · have hnc : ∀ t ∈ mkSubTasks subs (0 : Int) 0, t.canceled = false :=
        fun t ht => (mkSubTasks_log subs 0 0 t ht).2
      have hperm := drainTasks_perm (subs.length + 1) 0 (mkSubTasks subs 0 0)
          hnc (by have := mkSubTasks_len subs (0 : Int) 0; omega)
      have hmap := hperm.map (fun t => bodyName t.body)
      rw [mkSubTasks_names subs 0 0] at hmap
      simpa [LoopState.initial] using hmap
  · intro fuel s r h
    unfold tick at h
    cases hd : drainMicro fuel s with
    | none => rw [hd] at h; cases h
    | some sD =>
        rw [hd] at h
        dsimp only at h
        refine ⟨sD, rfl, drainMicro_empty fuel s sD hd, ?_⟩
        cases hp : popNextDue (nextClock sD) sD.tasks with
        | some pr =>
            rw [hp] at h
            obtain ⟨t, rest2⟩ := pr
            simp only [Option.some.injEq] at h
            exact Or.inl ⟨t, rest2, rfl, h.symm⟩
        | none =>
            rw [hp] at h
            simp only [Option.some.injEq] at h
            exact Or.inr ⟨rfl, h.symm⟩

theorem c1_all_micros_before_any_macrotask_witness :
    ∃ sD, drainMicro 1 LoopState.initial = some sD ∧ sD.micro = [] ∧
      ((∃ t rest2, popNextDue (nextClock sD) sD.tasks = some (t, rest2) ∧
          ((false, LoopState.initial) : Bool × LoopState) =
            (true, runTask t { sD with clock := nextClock sD, tasks := rest2 })) ∨
        (popNextDue (nextClock sD) sD.tasks = none ∧
          ((false, LoopState.initial) : Bool × LoopState) =
            (false, { sD with clock := nextClock sD }))) :=
  (c1_all_micros_before_any_macrotask []).2 1 LoopState.initial (false, LoopState.initial) rfl

/-- C3 counterexample: scheduling delays [0, -5] from one synchronous unit
fires timer 0 before timer 1 (both are due immediately, FIFO), although
the delay of the first-fired timer, 0, is strictly greater than the delay
of the second-fired timer, -5 — the firing order is not non-decreasing in
the raw delay. -/
theorem c3_counterexample_negative_delay :
    (runToCompletion 4 (timersProg [0, -5])).map LoopState.out = some ["0", "1"] ∧
      ([(0 : Int), -5].getD 0 0 > [(0 : Int), -5].getD 1 0) :=
  ⟨rfl, by decide⟩

/-- C3 (amended): timers scheduled with delays `ds` from one synchronous
unit fire in non-decreasing clamped-delay (`max d 0`) order, with equal
clamped delays firing in submission (FIFO) order; each timer due time is
computed as `clock.now() + max(delay, 0)`. -/
theorem c3_timers_fire_in_clamped_delay_order (ds : List Int) :
    (∃ (s1 : LoopState) (idxs : List Nat), runToCompletion (ds.length + 1) (timersProg ds) = some s1 ∧
        s1.out = idxs.map toString ∧
        idxs.Perm (List.range ds.length) ∧
        idxs.Pairwise (fun i j =>
          max (ds.getD i 0) 0 < max (ds.getD j 0) 0 ∨
            (max (ds.getD i 0) 0 = max (ds.getD j 0) 0 ∧ i < j))) ∧
    (∀ (d : Int) (body : Prog) (s : LoopState),
        (execProg (.scheduleTimer d body fun _ => .nop) s).1.tasks =
          s.tasks ++ [⟨s.nextSeq, s.clock + max d 0, body, false⟩]) := by
  constructor
  · have hexec := execProg_timers ds 0 LoopState.initial rfl rfl
    unfold runToCompletion
    simp only [timersProg]
    rw [hexec]
    dsimp only
    obtain ⟨s1, hloop, hout⟩ :=
      loopTicks_logTasks (ds.length + 1)
        ({ LoopState.initial with nextSeq := 0 + ds.length, tasks := LoopState.initial.tasks ++ timerTasks ds 0 })
        rfl
        (by
          intro t ht
          simp only [LoopState.initial, List.nil_append] at ht
          exact timerTasks_log ds 0 t ht)
        (by
          simp only [LoopState.initial, List.nil_append, timerTasks_len]
          omega)
    refine ⟨s1,
      (drainTasks (ds.length + 1) (0 : Int) (timerTasks ds 0)).map (fun t => t.seqn),
      hloop, ?_, ?_, ?_⟩
    · rw [hout]
      have hmap2 : List.map (fun t => bodyName t.body)
            (drainTasks (ds.length + 1) (0 : Int) (timerTasks ds 0)) =
          List.map (fun t => toString t.seqn)
            (drainTasks (ds.length + 1) (0 : Int) (timerTasks ds 0)) := by
        refine List.map_congr_left ?_
        intro t ht
        obtain ⟨j, _, h1, _, h3, _⟩ :=
          timerTasks_mem ds 0 t (drainTasks_mem _ _ _ t ht)
        rw [h1, h3]
        rfl
      simp only [LoopState.initial, List.nil_append]
      rw [hmap2, List.map_map]
      rfl
    · have hperm := drainTasks_perm (ds.length + 1) 0 (timerTasks ds 0)
        (fun t ht => (timerTasks_log ds 0 t ht).2)
        (by rw [timerTasks_len]; omega)
      have hmap := hperm.map (fun t => t.seqn)
      rw [timerTasks_map_seqn] at hmap
      rw [List.range_eq_range' ds.length]
      exact hmap
    · have hpw := drainTasks_pairwise (ds.length + 1) 0 (timerTasks ds 0)
        (timerTasks_sorted ds 0)
        (fun t ht => (timerTasks_log ds 0 t ht).2)
      rw [List.pairwise_map]
      refine hpw.imp_of_mem ?_
      intro a b ha hb hab
      obtain ⟨j, _, ha1, ha2, _, _⟩ :=
        timerTasks_mem ds 0 a (drainTasks_mem _ _ _ a ha)
      obtain ⟨k, _, hb1, hb2, _, _⟩ :=
        timerTasks_mem ds 0 b (drainTasks_mem _ _ _ b hb)
      simp only [Nat.zero_add] at ha1 hb1
      subst ha1
      subst hb1
      rcases hab with hlt | ⟨heq, hseq⟩
      · exact Or.inl (by rw [← ha2, ← hb2]; exact hlt)
      · exact Or.inr ⟨by rw [← ha2, ← hb2]; exact heq, hseq⟩
  · intro d body s
    simp only [execProg]

/-! ## Promise.all / Promise.allSettled machinery (C4, C8) -/

theorem plainRes_ok {v : Value} (h : plainRes (.ok v)) : plainVal v := by
  cases v with
  | vprom q => exact h.elim
  | vunit => trivial
  | vstr a => trivial
  | vnat a => trivial
  | vlist a => trivial
  | vrec a b => trivial

theorem collectSlots_map_some : ∀ (l : List Value), collectSlots (l.map some) = some l := by
  intro l
  induction l with
  | nil => rfl
  | cons a as ih => simp only [List.map_cons, collectSlots, ih]

theorem set_append_len {α : Type} (l : List α) (x y : α) :
    (l ++ [x]).set l.length y = l ++ [y] := by
  induction l with
  | nil => rfl
  | cons a as ih => simp only [List.cons_append, List.length_cons, List.set_cons_succ, ih]

theorem set_slot_boundary (pre : List Value) (m : Nat) (w : Value) :
    (pre.map some ++ List.replicate (m + 1) none).set pre.length (some w) =
      (pre ++ [w]).map some ++ List.replicate m none := by
  induction pre with
  | nil => simp [List.replicate_succ]
  | cons a pre ih =>
      simp only [List.map_cons, List.cons_append, List.length_cons, List.set_cons_succ, ih]

theorem resolvePromise_plain_pending {p : Nat} {v : Value} {s : LoopState} {ws : List Reaction}
    (hp : s.proms[p]? = some (PState.pending ws)) (hv : plainVal v) :
    resolvePromise p v s =
      { s with proms := s.proms.set p (.fulfilled v),
               micro := s.micro ++ ws.map (fun w => reactionMicro w (.ok v)) } := by
  unfold resolvePromise
  rw [hp]
  cases v with
  | vprom q => exact hv.elim
  | vunit => rfl
  | vstr a => rfl
  | vnat a => rfl
  | vlist a => rfl
  | vrec a b => rfl

theorem rejectPromise_pending {p : Nat} {e : Value} {s : LoopState} {ws : List Reaction}
    (hp : s.proms[p]? = some (PState.pending ws)) :
    rejectPromise p e s =
      { s with proms := s.proms.set p (.rejected e),
               micro := s.micro ++ ws.map (fun w => reactionMicro w (.error e)) } := by
  unfold rejectPromise
  rw [hp]
  rfl

theorem resolvePromise_noop_rejected {p : Nat} {v e : Value} {s : LoopState}
    (h : s.proms[p]? = some (PState.rejected e)) : resolvePromise p v s = s := by
  unfold resolvePromise
  rw [h]

theorem rejectPromise_noop_rejected {p : Nat} {e2 e : Value} {s : LoopState}
    (h : s.proms[p]? = some (PState.rejected e)) : rejectPromise p e2 s = s := by
  unfold rejectPromise
  rw [h]

/-- Creating and synchronously settling one promise per outcome appends
their settled states to the store and hands the fresh ids on. -/
theorem execProg_mkSettled : ∀ (rs : List (Except Value Value)) (k : List Nat → Prog)
    (s : LoopState), (∀ r ∈ rs, plainRes r) →
    execProg (mkSettled rs k) s =
      execProg (k (List.range' s.proms.length rs.length))
        { s with proms := s.proms ++ rs.map toPState,
                 handled := s.handled ++ List.replicate rs.length false } := by
  intro rs
  induction rs with
  | nil =>
      intro k s _
      simp only [mkSettled, List.length_nil, List.map_nil, List.replicate_zero,
        List.append_nil]
      rfl
  | cons r rest ih =>
      intro k s hplain
      simp only [mkSettled, execProg, List.length_cons]
      cases r with
      | ok v =>
          have hv : plainVal v := plainRes_ok (hplain (.ok v) (List.mem_cons_self _ _))
          simp only [settleProg, execProg]
          rw [resolvePromise_plain_pending (List.getElem?_concat_length s.proms _) hv]
          dsimp only
          rw [ih (fun ps => k (s.proms.length :: ps)) _
            (fun r2 hr2 => hplain r2 (List.mem_cons_of_mem _ hr2))]
          simp only [List.map_nil, List.append_nil, set_append_len, List.length_append,
            List.length_cons, List.length_nil, List.map_cons, List.replicate_succ,
            List.append_assoc, List.singleton_append, List.range'_succ]
          rfl
      | error e =>
          simp only [settleProg, execProg]
          rw [rejectPromise_pending (List.getElem?_concat_length s.proms _)]
          dsimp only
          rw [ih (fun ps => k (s.proms.length :: ps)) _
            (fun r2 hr2 => hplain r2 (List.mem_cons_of_mem _ hr2))]
          simp only [List.map_nil, List.append_nil, set_append_len, List.length_append,
            List.length_cons, List.length_nil, List.map_cons, List.replicate_succ,
            List.append_assoc, List.singleton_append, List.range'_succ]
          rfl

/-- Registering a combiner on a block of already-settled promises enqueues
one combiner-update microtask per input, in input order. -/
theorem registerAll_settled : ∀ (rs : List (Except Value Value)) (q0 cid i0 : Nat)
    (s : LoopState),
    (∀ (j : Nat) (r : Except Value Value), rs[j]? = some r →
      s.proms[q0 + j]? = some (toPState r)) →
    registerAll (List.range' q0 rs.length) cid i0 s =
      { s with handled := setTrueRange q0 rs.length s.handled,
               micro := s.micro ++ combMicros cid i0 rs } := by
  intro rs
  induction rs with
  | nil =>
      intro q0 cid i0 s _
      simp only [List.length_nil, combMicros, setTrueRange, List.append_nil]
      rfl
  | cons r rest ih =>
      intro q0 cid i0 s hs
      have h0 : s.proms[q0]? = some (toPState r) := by
        have h1 := hs 0 r (by simp)
        simpa using h1
      simp only [List.length_cons, List.range'_succ, registerAll]
      have hrest : ∀ (j : Nat) (r2 : Except Value Value), rest[j]? = some r2 →
          s.proms[q0 + 1 + j]? = some (toPState r2) := by
        intro j r2 hj
        have h2 := hs (j + 1) r2 (by simpa using hj)
        have harith : q0 + 1 + j = q0 + (j + 1) := by omega
        rw [harith]
        exact h2
      cases r with
      | ok v =>
          have hreg : registerReaction q0 (.combineR cid i0) s =
              { s with handled := s.handled.set q0 true,
                       micro := s.micro ++ [.combine cid i0 (.ok v)] } := by
            unfold registerReaction
            rw [h0]
            rfl
          rw [hreg]
          rw [ih (q0 + 1) cid (i0 + 1)
            { s with handled := s.handled.set q0 true,
                     micro := s.micro ++ [Micro.combine cid i0 (.ok v)] }
            (fun j r2 hj => hrest j r2 hj)]
          simp only [combMicros, setTrueRange, List.append_assoc, List.singleton_append]
      | error e =>
          have hreg : registerReaction q0 (.combineR cid i0) s =
              { s with handled := s.handled.set q0 true,
                       micro := s.micro ++ [.combine cid i0 (.error e)] } := by
            unfold registerReaction
            rw [h0]
            rfl
          rw [hreg]
          rw [ih (q0 + 1) cid (i0 + 1)
            { s with handled := s.handled.set q0 true,
                     micro := s.micro ++ [Micro.combine cid i0 (.error e)] }
            (fun j r2 hj => hrest j r2 hj)]
          simp only [combMicros, setTrueRange, List.append_assoc, List.singleton_append]

/-- With no macrotasks queued, the loop quiesces right after the drain. -/
theorem loopTicks_noTasks (n : Nat) (s sD : LoopState)
    (hd : drainMicro (n + 1) s = some sD) (ht : sD.tasks = []) :
    loopTicks (n + 1) s = some sD := by
  have hnc : nextClock sD = sD.clock := by
    unfold nextClock
    rw [ht]
    rfl
  have hp : popNextDue (nextClock sD) sD.tasks = none := by
    rw [ht]
    rfl
  unfold loopTicks
  unfold tick
  rw [hd]
  dsimp only
  rw [hp]
  dsimp only
  rw [hnc]

/-- A combiner update that is not the last report: fill the slot, count
down, change nothing else. -/
theorem runCombine_mid (idx : Nat) (r : Except Value Value) (s : LoopState)
    (tgt : Nat) (kd : CombKind) (sl : List (Option Value)) (rem : Nat)
    (hc : s.combs = [⟨tgt, kd, sl, rem + 2⟩])
    (hok : kd = .allK → ∃ v, r = .ok v) :
    runCombine 0 idx r s =
      { s with combs := [⟨tgt, kd, sl.set idx (some (slotOf kd r)), rem + 1⟩] } := by
  have hc0 : s.combs[0]? = some ⟨tgt, kd, sl, rem + 2⟩ := by rw [hc]; rfl
  unfold runCombine
  rw [hc0]
  cases kd with
  | allK =>
      obtain ⟨v, rfl⟩ := hok rfl
      dsimp only
      rw [if_neg (by omega)]
      unfold setComb
      rw [hc]
      rfl
  | allSettledK =>
      cases r with
      | ok v =>
          dsimp only
          rw [if_neg (by omega)]
          unfold setComb
          rw [hc]
          rfl
      | error e =>
          dsimp only
          rw [if_neg (by omega)]
          unfold setComb
          rw [hc]
          rfl

/-- Fulfilling a fresh pending promise on a state whose combiner list was
just replaced. -/
theorem resolvePromise_pending_combs (tgt : Nat) (v : Value) (s : LoopState)
    (cl : List Combiner) (hpend : s.proms[tgt]? = some (PState.pending []))
    (hv : plainVal v) :
    resolvePromise tgt v { s with combs := cl } =
      { s with combs := cl, proms := s.proms.set tgt (.fulfilled v) } := by
  unfold resolvePromise
  dsimp only
  rw [hpend]
  cases v with
  | vprom q => exact hv.elim
  | vunit => simp [settleFulfill, setProm]
  | vstr a => simp [settleFulfill, setProm]
  | vnat a => simp [settleFulfill, setProm]
  | vlist a => simp [settleFulfill, setProm]
  | vrec a b => simp [settleFulfill, setProm]

/-- The last combiner report: fill the final slot and fulfil the combined
promise with the ordered slot values. -/
theorem runCombine_last (r : Except Value Value) (s : LoopState)
    (tgt : Nat) (kd : CombKind) (pre : List Value)
    (hc : s.combs = [⟨tgt, kd, pre.map some ++ [none], 1⟩])
    (hpend : s.proms[tgt]? = some (PState.pending []))
    (hok : kd = .allK → ∃ v, r = .ok v) :
    runCombine 0 pre.length r s =
      { s with combs := [⟨tgt, kd, (pre ++ [slotOf kd r]).map some, 0⟩],
               proms := s.proms.set tgt (.fulfilled (.vlist (pre ++ [slotOf kd r]))) } := by
  have hc0 : s.combs[0]? = some ⟨tgt, kd, pre.map some ++ [none], 1⟩ := by rw [hc]; rfl
  have hslot : (pre.map some ++ [none]).set pre.length (some (slotOf kd r)) =
      (pre ++ [slotOf kd r]).map some := by
    have h1 := set_slot_boundary pre 0 (slotOf kd r)
    simpa [List.replicate_succ] using h1
  unfold runCombine
  rw [hc0]
  cases kd with
  | allK =>
      obtain ⟨v, rfl⟩ := hok rfl
      dsimp only
      simp only [slotOf, payloadOf, outcomeRec] at hslot ⊢
      rw [hslot]
      simp only [if_true]
      rw [collectSlots_map_some]
      unfold setComb
      rw [hc]
      dsimp only
      rw [resolvePromise_pending_combs tgt _ s _ hpend
        (show plainVal (Value.vlist (pre ++ [v])) from trivial)]
      simp only [List.set_cons_zero, Nat.sub_self]
  | allSettledK =>
      cases r with
      | ok v =>
          dsimp only
          simp only [slotOf, payloadOf, outcomeRec] at hslot ⊢
          rw [hslot]
          simp only [if_true]
          rw [collectSlots_map_some]
          unfold setComb
          rw [hc]
          dsimp only
          rw [resolvePromise_pending_combs tgt _ s _ hpend
            (show plainVal (Value.vlist (pre ++ [Value.vrec true v])) from trivial)]
          simp only [List.set_cons_zero, Nat.sub_self]
      | error e =>
          dsimp only
          simp only [slotOf, payloadOf, outcomeRec] at hslot ⊢
          rw [hslot]
          simp only [if_true]
          rw [collectSlots_map_some]
          unfold setComb
          rw [hc]
          dsimp only
          rw [resolvePromise_pending_combs tgt _ s _ hpend
            (show plainVal (Value.vlist (pre ++ [Value.vrec false e])) from trivial)]
          simp only [List.set_cons_zero, Nat.sub_self]

/-- Draining the combiner updates of already-settled inputs fulfils the
combined promise with the ordered slot values (for Promise.all this
requires every input fulfilled; Promise.allSettled takes any outcomes). -/
theorem drainMicro_combines : ∀ (rs : List (Except Value Value)) (pre : List Value)
    (fuel : Nat) (s : LoopState) (kd : CombKind) (tgt : Nat),
    s.micro = combMicros 0 pre.length rs →
    s.combs = [⟨tgt, kd, pre.map some ++ List.replicate rs.length none, rs.length⟩] →
    s.proms[tgt]? = some (PState.pending []) →
    (∀ r ∈ rs, kd = .allK → ∃ v, r = .ok v) →
    rs ≠ [] →
    rs.length ≤ fuel →
    ∃ s1, drainMicro fuel s = some s1 ∧ s1.tasks = s.tasks ∧
      s1.proms[tgt]? = some (PState.fulfilled (.vlist (pre ++ rs.map (slotOf kd)))) := by
  intro rs
  induction rs with
  | nil => intro pre fuel s kd tgt _ _ _ _ hne _; exact absurd rfl hne
  | cons r rest ih =>
      intro pre fuel s kd tgt hm hcombs hpend hok _ hfuel
      simp only [List.length_cons] at hfuel
      cases fuel with
      | zero => omega
      | succ f =>
          have hlt := (List.getElem?_eq_some_iff.mp hpend).1
          simp only [drainMicro, hm, combMicros, runMicro]
          cases rest with
          | nil =>
              have hc2 : s.combs = [⟨tgt, kd, pre.map some ++ [none], 1⟩] := by
                rw [hcombs]
                simp [List.replicate_succ]
              rw [runCombine_last r { s with micro := combMicros 0 (pre.length + 1) [] }
                tgt kd pre hc2 hpend (fun hk => hok r (List.mem_cons_self _ _) hk)]
              refine ⟨_, drainMicro_nil f _ rfl, rfl, ?_⟩
              simp [List.getElem?_set_self, hlt]
          | cons r2 rest2 =>
              have harith : rest2.length + 1 + 1 = rest2.length + 2 := by omega
              simp only [List.length_cons] at hcombs
              rw [harith] at hcombs
              rw [runCombine_mid pre.length r
                { s with micro := combMicros 0 (pre.length + 1) (r2 :: rest2) }
                tgt kd (pre.map some ++ List.replicate (rest2.length + 2) none)
                rest2.length hcombs (fun hk => hok r (List.mem_cons_self _ _) hk)]
              rw [(by omega : rest2.length + 2 = rest2.length + 1 + 1)]
              rw [set_slot_boundary]
              obtain ⟨s1, h1, h2, h3⟩ := ih (pre ++ [slotOf kd r]) f
                { s with micro := combMicros 0 (pre.length + 1) (r2 :: rest2),
                         combs := [⟨tgt, kd,
                           (pre ++ [slotOf kd r]).map some ++
                             List.replicate (rest2.length + 1) none,
                           rest2.length + 1⟩] }
                kd tgt (by simp) (by simp) hpend
                (fun r3 h3 hk => hok r3 (List.mem_cons_of_mem _ h3) hk) (by simp)
                (by omega)
              exact ⟨s1, h1, h2, by simpa [List.append_assoc] using h3⟩

/-- A combiner update on a state whose target promise is already rejected
only rewrites the combiner bookkeeping; the promise store is untouched. -/
theorem runCombine_rejected (i0 : Nat) (r : Except Value Value) (s : LoopState)
    (tgt : Nat) (kd : CombKind) (sl : List (Option Value)) (rem : Nat) (e : Value)
    (hc : s.combs = [⟨tgt, kd, sl, rem⟩])
    (hrej : s.proms[tgt]? = some (PState.rejected e)) :
    ∃ sl2 rem2, runCombine 0 i0 r s =
      { s with combs := [⟨tgt, kd, sl2, rem2⟩] } := by
  have hc0 : s.combs[0]? = some ⟨tgt, kd, sl, rem⟩ := by rw [hc]; rfl
  unfold runCombine
  rw [hc0]
  cases kd with
  | allK =>
      cases r with
      | error e2 =>
          refine ⟨sl, rem, ?_⟩
          dsimp only
          rw [rejectPromise_noop_rejected hrej]
          rw [← hc]
      | ok v =>
          dsimp only
          by_cases hr0 : rem - 1 = 0
          · rw [if_pos hr0]
            refine ⟨sl.set i0 (some v), rem - 1, ?_⟩
            cases hcoll : collectSlots (sl.set i0 (some v)) with
            | some vs =>
                unfold setComb
                rw [hc]
                simp only [List.set_cons_zero]
                rw [resolvePromise_noop_rejected
                  (show ({ s with combs :=
                      [⟨tgt, CombKind.allK, sl.set i0 (some v), rem - 1⟩] } :
                    LoopState).proms[tgt]? = some (PState.rejected e) from hrej)]
            | none =>
                unfold setComb
                rw [hc]
                simp only [List.set_cons_zero]
          · rw [if_neg hr0]
            refine ⟨sl.set i0 (some v), rem - 1, ?_⟩
            unfold setComb
            rw [hc]
            simp only [List.set_cons_zero]
  | allSettledK =>
      cases r with
      | ok v =>
          dsimp only
          by_cases hr0 : rem - 1 = 0
          · rw [if_pos hr0]
            refine ⟨sl.set i0 (some (Value.vrec true v)), rem - 1, ?_⟩
            cases hcoll : collectSlots (sl.set i0 (some (Value.vrec true v))) with
            | some vs =>
                unfold setComb
                rw [hc]
                simp only [List.set_cons_zero]
                rw [resolvePromise_noop_rejected
                  (show ({ s with combs :=
                      [⟨tgt, CombKind.allSettledK, sl.set i0 (some (Value.vrec true v)),
                        rem - 1⟩] } :
                    LoopState).proms[tgt]? = some (PState.rejected e) from hrej)]
            | none =>
                unfold setComb
                rw [hc]
                simp only [List.set_cons_zero]
          · rw [if_neg hr0]
            refine ⟨sl.set i0 (some (Value.vrec true v)), rem - 1, ?_⟩
            unfold setComb
            rw [hc]
            simp only [List.set_cons_zero]
      | error e2 =>
          dsimp only
          by_cases hr0 : rem - 1 = 0
          · rw [if_pos hr0]
            refine ⟨sl.set i0 (some (Value.vrec false e2)), rem - 1, ?_⟩
            cases hcoll : collectSlots (sl.set i0 (some (Value.vrec false e2))) with
            | some vs =>
                unfold setComb
                rw [hc]
                simp only [List.set_cons_zero]
                rw [resolvePromise_noop_rejected
                  (show ({ s with combs :=
                      [⟨tgt, CombKind.allSettledK, sl.set i0 (some (Value.vrec false e2)),
                        rem - 1⟩] } :
                    LoopState).proms[tgt]? = some (PState.rejected e) from hrej)]
            | none =>
                unfold setComb
                rw [hc]
                simp only [List.set_cons_zero]
          · rw [if_neg hr0]
            refine ⟨sl.set i0 (some (Value.vrec false e2)), rem - 1, ?_⟩
            unfold setComb
            rw [hc]
            simp only [List.set_cons_zero]

/-- Once the Promise.all target is rejected, draining any further combiner
updates leaves it rejected with the same reason. -/
theorem drainMicro_combines_rejected : ∀ (rs : List (Except Value Value)) (i0 fuel : Nat)
    (s : LoopState) (tgt : Nat) (kd : CombKind) (sl : List (Option Value)) (rem : Nat)
    (e : Value),
    s.micro = combMicros 0 i0 rs →
    s.combs = [⟨tgt, kd, sl, rem⟩] →
    s.proms[tgt]? = some (PState.rejected e) →
    rs.length ≤ fuel →
    ∃ s1, drainMicro fuel s = some s1 ∧ s1.tasks = s.tasks ∧
      s1.proms[tgt]? = some (PState.rejected e) := by
  intro rs
  induction rs with
  | nil =>
      intro i0 fuel s tgt kd sl rem e hm _ hrej _
      exact ⟨s, drainMicro_nil fuel s hm, rfl, hrej⟩
  | cons r rest ih =>
      intro i0 fuel s tgt kd sl rem e hm hcombs hrej hfuel
      simp only [List.length_cons] at hfuel
      cases fuel with
      | zero => omega
      | succ f =>
          simp only [drainMicro, hm, combMicros, runMicro]
          obtain ⟨sl2, rem2, hrun⟩ := runCombine_rejected i0 r
            { s with micro := combMicros 0 (i0 + 1) rest }
            tgt kd sl rem e hcombs hrej
          rw [hrun]
          obtain ⟨s1, h1, h2, h3⟩ := ih (i0 + 1) f
            { s with micro := combMicros 0 (i0 + 1) rest,
                     combs := [⟨tgt, kd, sl2, rem2⟩] }
            tgt kd sl2 rem2 e rfl rfl hrej (by omega)
          exact ⟨s1, h1, h2, h3⟩

/-- Promise.all rejects with the first rejection observed: a fulfilled
prefix, then a rejection, then anything — the combined promise ends
rejected with that first reason. -/
theorem drainMicro_allK_first_error : ∀ (vs : List Value) (pre : List Value) (e : Value)
    (rest : List (Except Value Value)) (fuel : Nat) (s : LoopState) (tgt : Nat),
    s.micro = combMicros 0 pre.length (vs.map .ok ++ .error e :: rest) →
    s.combs = [⟨tgt, .allK,
        pre.map some ++ List.replicate (vs.length + rest.length + 1) none,
        vs.length + rest.length + 1⟩] →
    s.proms[tgt]? = some (PState.pending []) →
    vs.length + rest.length + 1 ≤ fuel →
    ∃ s1, drainMicro fuel s = some s1 ∧ s1.tasks = s.tasks ∧
      s1.proms[tgt]? = some (PState.rejected e) := by
  intro vs
  induction vs with
  | nil =>
      intro pre e rest fuel s tgt hm hcombs hpend hfuel
      simp only [List.length_nil, Nat.zero_add] at hcombs hfuel
      cases fuel with
      | zero => omega
      | succ f =>
          have hlt := (List.getElem?_eq_some_iff.mp hpend).1
          have hc0 : s.combs[0]? = some ⟨tgt, .allK,
              pre.map some ++ List.replicate (rest.length + 1) none,
              rest.length + 1⟩ := by rw [hcombs]; rfl
          simp only [List.map_nil, List.nil_append] at hm
          simp only [drainMicro, hm, combMicros, runMicro]
          have hrc : runCombine 0 pre.length (.error e)
              { s with micro := combMicros 0 (pre.length + 1) rest } =
              { s with micro := combMicros 0 (pre.length + 1) rest,
                       proms := s.proms.set tgt (.rejected e) } := by
            unfold runCombine
            dsimp only
            rw [hc0]
            unfold rejectPromise
            dsimp only
            rw [hpend]
            simp [setProm]
          rw [hrc]
          obtain ⟨s1, h1, h2, h3⟩ := drainMicro_combines_rejected rest (pre.length + 1) f
            { s with micro := combMicros 0 (pre.length + 1) rest,
                     proms := s.proms.set tgt (.rejected e) }
            tgt .allK (pre.map some ++ List.replicate (rest.length + 1) none)
            (rest.length + 1) e rfl hcombs
            (by simp [List.getElem?_set_self, hlt]) (by omega)
          exact ⟨s1, h1, h2, h3⟩
  | cons v vs ih =>
      intro pre e rest fuel s tgt hm hcombs hpend hfuel
      simp only [List.length_cons] at hcombs hfuel
      cases fuel with
      | zero => omega
      | succ f =>
          rw [(by omega : vs.length + 1 + rest.length + 1 =
            vs.length + rest.length + 2)] at hcombs
          simp only [List.map_cons, List.cons_append] at hm
          simp only [drainMicro, hm, combMicros, runMicro]
          rw [runCombine_mid pre.length (.ok v)
            { s with micro := combMicros 0 (pre.length + 1) (vs.map .ok ++ .error e :: rest) }
            tgt .allK
            (pre.map some ++ List.replicate (vs.length + rest.length + 2) none)
            (vs.length + rest.length)
            hcombs (fun _ => ⟨v, rfl⟩)]
          simp only [slotOf, payloadOf]
          rw [(by omega : vs.length + rest.length + 2 = vs.length + rest.length + 1 + 1)]
          rw [set_slot_boundary]
          obtain ⟨s1, h1, h2, h3⟩ := ih (pre ++ [v]) e rest f
            { s with micro := combMicros 0 (pre.length + 1) (vs.map .ok ++ .error e :: rest),
                     combs := [⟨tgt, .allK,
                       (pre ++ [v]).map some ++
                         List.replicate (vs.length + rest.length + 1) none,
                       vs.length + rest.length + 1⟩] }
            tgt (by simp) (by simp) hpend (by omega)
          exact ⟨s1, h1, h2, h3⟩

/-- A non-promise value settles an input to a plain outcome. -/
theorem plainRes_of_plainVal (v : Value) (h : plainVal v) : plainRes (Except.ok v) := by
  cases v with
  | vprom q => exact h.elim
  | vunit => trivial
  | vstr a => trivial
  | vnat a => trivial
  | vlist a => trivial
  | vrec a b => trivial

/-- allSettled slots store outcome records. -/
theorem slotOf_allSettledK_eq : slotOf CombKind.allSettledK = outcomeRec := by
  funext r
  cases r with
  | ok v => rfl
  | error e => rfl

/-- Promise.all slots store the fulfilled input values unchanged. -/
theorem map_ok_slotOf_allK (vs : List Value) :
    (vs.map Except.ok).map (slotOf CombKind.allK) = vs := by
  induction vs with
  | nil => rfl
  | cons v vs ih => simp only [List.map_cons, slotOf, payloadOf, ih]

/-- Running `Promise.allSettled` over freshly settled inputs up to the end
of the synchronous unit: the inputs sit settled in the store, the combined
promise is pending at index `rs.length`, and one combiner-update microtask
per input is queued in input order. -/
theorem setup_allSettledP (rs : List (Except Value Value))
    (hplain : ∀ r ∈ rs, plainRes r) (hne : rs ≠ []) (fuel : Nat) :
    runToCompletion fuel (mkSettled rs fun ps => .allSettledP ps fun _ => .nop) =
      loopTicks fuel
        { LoopState.initial with
          proms := rs.map toPState ++ [.pending []],
          handled := setTrueRange 0 rs.length (List.replicate rs.length false ++ [false]),
          combs := [⟨rs.length, .allSettledK, List.replicate rs.length none, rs.length⟩],
          micro := combMicros 0 0 rs } := by
  obtain ⟨r0, rest, rfl⟩ := List.exists_cons_of_ne_nil hne
  unfold runToCompletion
  rw [execProg_mkSettled (r0 :: rest) _ LoopState.initial hplain]
  simp only [LoopState.initial, List.length_nil, List.nil_append]
  simp only [execProg]
  rw [if_neg (by simp)]
  simp only [List.length_nil, List.nil_append, List.length_range', List.length_map]
  rw [registerAll_settled (r0 :: rest) 0 0 0]
  · simp only [List.nil_append]
  · intro j r hj
    have hjlt : j < (r0 :: rest).length := by
      by_contra hge
      rw [List.getElem?_eq_none (by omega)] at hj
      cases hj
    rw [Nat.zero_add]
    rw [List.getElem?_append_left (by simpa using hjlt)]
    rw [List.getElem?_map, hj]
    rfl

/-- Running `Promise.all` over freshly settled inputs up to the end of the
synchronous unit, symmetrically. -/
theorem setup_allP (rs : List (Except Value Value))
    (hplain : ∀ r ∈ rs, plainRes r) (hne : rs ≠ []) (fuel : Nat) :
    runToCompletion fuel (mkSettled rs fun ps => .allP ps fun _ => .nop) =
      loopTicks fuel
        { LoopState.initial with
          proms := rs.map toPState ++ [.pending []],
          handled := setTrueRange 0 rs.length (List.replicate rs.length false ++ [false]),
          combs := [⟨rs.length, .allK, List.replicate rs.length none, rs.length⟩],
          micro := combMicros 0 0 rs } := by
  obtain ⟨r0, rest, rfl⟩ := List.exists_cons_of_ne_nil hne
  unfold runToCompletion
  rw [execProg_mkSettled (r0 :: rest) _ LoopState.initial hplain]
  simp only [LoopState.initial, List.length_nil, List.nil_append]
  simp only [execProg]
  rw [if_neg (by simp)]
  simp only [List.length_nil, List.nil_append, List.length_range', List.length_map]
  rw [registerAll_settled (r0 :: rest) 0 0 0]
  · simp only [List.nil_append]
  · intro j r hj
    have hjlt : j < (r0 :: rest).length := by
      by_contra hge
      rw [List.getElem?_eq_none (by omega)] at hj
      cases hj
    rw [Nat.zero_add]
    rw [List.getElem?_append_left (by simpa using hjlt)]
    rw [List.getElem?_map, hj]
    rfl

/-- C6: one synchronous unit submits log A, a zero-delay timer logging B,
a `.then` continuation logging C on an already-resolved promise, and log D;
the observed order is exactly A, D, C, B — synchronous logs first, then the
promise continuation, then the zero-delay timer. -/
theorem c6_sync_then_micro_then_macro :
    (runToCompletion 10 c6prog).map LoopState.out = some ["A", "D", "C", "B"] := rfl

/-- C2: microtask draining is exhaustive per iteration — draining only
returns with an empty MicrotaskQueue, so microtasks enqueued during
draining also run before any macrotask; in particular the nested-`.then`
scenario with a zero-delay timer logs X, Y, Z in that order. -/
theorem c2_nested_micro_drained_before_timer :
    ((runToCompletion 10 c2prog).map LoopState.out = some ["X", "Y", "Z"]) ∧
    (∀ (fuel : Nat) (s s1 : LoopState), drainMicro fuel s = some s1 → s1.micro = []) :=
  ⟨rfl, drainMicro_empty⟩

theorem c2_nested_micro_drained_before_timer_witness :
    LoopState.initial.micro = [] :=
  c2_nested_micro_drained_before_timer.2 1 LoopState.initial LoopState.initial rfl

/-- C9: a throwing payload only appends to the collected error list —
whether it ran as a macrotask or as a plain microtask — leaving queues and
clock untouched, and the run continues deterministically: in the mixed
scenario both healthy units still run, and `runToCompletion` reports the
execution errors followed by the unhandled rejection instead of throwing. -/
theorem c9_errors_isolated_and_reported :
    (∀ (e : Value) (s : LoopState) (q : Nat) (d : Int) (cc : Bool),
        runTask ⟨q, d, .throwE e, cc⟩ s = { s with errors := s.errors ++ [e] }) ∧
    (∀ (e : Value) (s : LoopState),
        runMicro (.mrun (.throwE e)) s = { s with errors := s.errors ++ [e] }) ∧
    (runToCompletion 8 c9prog).map (fun s => (s.out, reportOf s)) =
      some (["M2", "T1", "T2"], [.vstr "boomMicro", .vstr "boomTask", .vstr "lost"]) :=
  ⟨fun _ _ _ _ _ => rfl, fun _ _ => rfl, rfl⟩

/-- C10: a `.then` handler that throws rejects the derived promise with the
thrown error — stated generally for any handler whose body throws, and
concretely: the demo chain logs the downstream `.catch` output
"caught:boom" and leaves the derived promise Rejected with "boom". -/
theorem c10_thrown_handler_error_rejects_derived :
    (∀ (d : Nat) (f : Value → Prog) (res : Except Value Value) (s s1 : LoopState) (e : Value),
        execProg (f (payloadOf res)) s = (s1, .error e) →
        runMicro (.react d (some f) res) s = rejectPromise d e s1) ∧
    (runToCompletion 8 c10prog).map (fun s => (s.out, s.proms[1]?)) =
      some (["h", "caught:boom"], some (PState.rejected (.vstr "boom"))) := by
  constructor
  · intro d f res s s1 e h
    simp only [runMicro]
    rw [h]
  · rfl

/-- C7: a canceled task can never be executed (the queue never hands one
out), canceling a handle that is no longer queued is a pure no-op that
raises no error, and in the demos the canceled timer never logs while the
stale cancel leaves the fired run untouched with no error recorded. -/
theorem c7_cancel_prevents_run_and_late_cancel_noop :
    (∀ (c : Int) (l : List Task) (x : Task) (rest : List Task),
        popNextDue c l = some (x, rest) → x.canceled = false) ∧
    (∀ (h : Nat) (s : LoopState), (∀ t ∈ s.tasks, t.seqn ≠ h) →
        execProg (.cancelTimer h) s = (s, .ok .vunit)) ∧
    (runToCompletion 6 c7cancelProg).map (fun s => (s.out, s.errors)) = some (["K"], []) ∧
    (runToCompletion 6 c7lateProg).map (fun s => (s.out, s.errors)) = some (["T"], []) := by
  refine ⟨popNextDue_not_canceled, ?_, rfl, rfl⟩
  intro h s hns
  simp only [execProg]
  have hmap : (s.tasks.map fun t => if t.seqn = h then { t with canceled := true } else t)
      = s.tasks := by
    have h2 : ∀ t ∈ s.tasks, (if t.seqn = h then { t with canceled := true } else t) = t := by
      intro t ht
      rw [if_neg (hns t ht)]
    calc (s.tasks.map fun t => if t.seqn = h then { t with canceled := true } else t)
        = s.tasks.map id := List.map_congr_left h2
      _ = s.tasks := List.map_id _
  rw [hmap]

theorem c7_cancel_prevents_run_and_late_cancel_noop_witness :
    execProg (.cancelTimer 5) LoopState.initial = (LoopState.initial, .ok .vunit) :=
  c7_cancel_prevents_run_and_late_cancel_noop.2.1 5 LoopState.initial
    (fun t ht => absurd ht (List.not_mem_nil t))

/-! ## Settlement monotonicity machinery (C5) -/

theorem settledLE_refl (s : LoopState) : settledLE s s :=
  fun _ _ => ⟨id, id⟩

theorem settledLE_trans {s1 s2 s3 : LoopState} (h1 : settledLE s1 s2) (h2 : settledLE s2 s3) :
    settledLE s1 s3 :=
  fun p v =>
    ⟨fun h => ((h2 p v).1 ((h1 p v).1 h)), fun h => ((h2 p v).2 ((h1 p v).2 h))⟩

theorem settledLE_of_proms_eq {s s1 : LoopState} (h : s1.proms = s.proms) : settledLE s s1 :=
  fun p v => by rw [h]; exact ⟨id, id⟩

theorem settledLE_proms_append {s s1 : LoopState} (l : List PState)
    (h : s1.proms = s.proms ++ l) : settledLE s s1 := by
  intro p v
  constructor
  · intro hp
    rw [h, List.getElem?_append_left (List.getElem?_eq_some_iff.mp hp).1]
    exact hp
  · intro hp
    rw [h, List.getElem?_append_left (List.getElem?_eq_some_iff.mp hp).1]
    exact hp

theorem settledLE_proms_set_pending {s s1 : LoopState} (q : Nat) (ws : List Reaction)
    (st : PState) (hq : s.proms[q]? = some (PState.pending ws))
    (h : s1.proms = s.proms.set q st) : settledLE s s1 := by
  intro p v
  constructor
  · intro hp
    rcases eq_or_ne q p with rfl | hne
    · rw [hq] at hp; cases hp
    · rw [h, List.getElem?_set_ne hne]; exact hp
  · intro hp
    rcases eq_or_ne q p with rfl | hne
    · rw [hq] at hp; cases hp
    · rw [h, List.getElem?_set_ne hne]; exact hp

theorem settledLE_registerReaction (p : Nat) (r : Reaction) (s : LoopState) :
    settledLE s (registerReaction p r s) := by
  unfold registerReaction
  cases hp : s.proms[p]? with
  | none => exact settledLE_refl s
  | some st =>
      cases st with
      | pending ws =>
          exact settledLE_proms_set_pending p ws (PState.pending (ws ++ [r])) hp
            (by simp [markHandled, setProm])
      | fulfilled v => exact settledLE_of_proms_eq (by simp [markHandled])
      | rejected e => exact settledLE_of_proms_eq (by simp [markHandled])

theorem settledLE_resolvePromise (p : Nat) (v : Value) (s : LoopState) :
    settledLE s (resolvePromise p v s) := by
  unfold resolvePromise
  cases hp : s.proms[p]? with
  | none => exact settledLE_refl s
  | some st =>
      cases st with
      | pending ws =>
          cases v with
          | vprom q => exact settledLE_registerReaction q (.thenR none none p) s
          | vunit =>
              exact settledLE_proms_set_pending p ws (PState.fulfilled .vunit) hp
                (by simp [settleFulfill, setProm])
          | vstr a =>
              exact settledLE_proms_set_pending p ws (PState.fulfilled (.vstr a)) hp
                (by simp [settleFulfill, setProm])
          | vnat a =>
              exact settledLE_proms_set_pending p ws (PState.fulfilled (.vnat a)) hp
                (by simp [settleFulfill, setProm])
          | vlist a =>
              exact settledLE_proms_set_pending p ws (PState.fulfilled (.vlist a)) hp
                (by simp [settleFulfill, setProm])
          | vrec a b =>
              exact settledLE_proms_set_pending p ws (PState.fulfilled (.vrec a b)) hp
                (by simp [settleFulfill, setProm])
      | fulfilled w => exact settledLE_refl s
      | rejected w => exact settledLE_refl s

theorem settledLE_rejectPromise (p : Nat) (e : Value) (s : LoopState) :
    settledLE s (rejectPromise p e s) := by
  unfold rejectPromise
  cases hp : s.proms[p]? with
  | none => exact settledLE_refl s
  | some st =>
      cases st with
      | pending ws =>
          exact settledLE_proms_set_pending p ws (PState.rejected e) hp (by simp [setProm])
      | fulfilled w => exact settledLE_refl s
      | rejected w => exact settledLE_refl s

theorem settledLE_runCombine (cid idx : Nat) (res : Except Value Value) (s : LoopState) :
    settledLE s (runCombine cid idx res s) := by
  unfold runCombine
  cases hc : s.combs[cid]? with
  | none => exact settledLE_refl s
  | some c =>
      obtain ⟨tgt, kd, sl, rem⟩ := c
      cases kd with
      | allK =>
          cases res with
          | error e => exact settledLE_rejectPromise tgt e s
          | ok v =>
              dsimp only
              split
              next =>
                split
                next =>
                  exact settledLE_trans (settledLE_of_proms_eq (by simp [setComb]))
                    (settledLE_resolvePromise _ _ _)
                next => exact settledLE_of_proms_eq (by simp [setComb])
              next => exact settledLE_of_proms_eq (by simp [setComb])
      | allSettledK =>
          dsimp only
          split
          next =>
            split
            next =>
              exact settledLE_trans (settledLE_of_proms_eq (by simp [setComb]))
                (settledLE_resolvePromise _ _ _)
            next => exact settledLE_of_proms_eq (by simp [setComb])
          next => exact settledLE_of_proms_eq (by simp [setComb])

theorem settledLE_registerAll : ∀ (ps : List Nat) (cid i0 : Nat) (s : LoopState),
    settledLE s (registerAll ps cid i0 s) := by
  intro ps
  induction ps with
  | nil => intro cid i0 s; exact settledLE_refl s
  | cons p rest ih =>
      intro cid i0 s
      exact settledLE_trans (settledLE_registerReaction p (.combineR cid i0) s) (ih cid (i0 + 1) _)

theorem settledLE_execProg : ∀ (pr : Prog) (s : LoopState), settledLE s (execProg pr s).1 := by
  intro pr
  induction pr with
  | nop => intro s; exact settledLE_refl s
  | log m => intro s; exact settledLE_of_proms_eq (by simp [execProg])
  | retV v => intro s; exact settledLE_refl s
  | throwE e => intro s; exact settledLE_refl s
  | seq a b iha ihb =>
      intro s
      simp only [execProg]
      cases hx : execProg a s with
      | mk s1 r =>
          cases r with
          | error e =>
              have h1 := iha s
              rw [hx] at h1
              exact h1
          | ok v =>
              have h1 := iha s
              rw [hx] at h1
              exact settledLE_trans h1 (ihb s1)
  | scheduleTimer d body k ihb ihk =>
      intro s
      simp only [execProg]
      refine settledLE_trans ?_ (ihk s.nextSeq _)
      exact settledLE_of_proms_eq rfl
  | cancelTimer h => intro s; exact settledLE_of_proms_eq (by simp [execProg])
  | enqueueMicro body => intro s; exact settledLE_of_proms_eq (by simp [execProg])
  | newPromise k ih =>
      intro s
      simp only [execProg]
      refine settledLE_trans ?_ (ih s.proms.length _)
      exact settledLE_proms_append [PState.pending []] rfl
  | resolveP p v => intro s; exact settledLE_resolvePromise p v s
  | rejectP p e => intro s; exact settledLE_rejectPromise p e s
  | thenP p bF onF bR onR k ihF ihR ih =>
      intro s
      simp only [execProg]
      refine settledLE_trans ?_ (ih s.proms.length _)
      refine settledLE_trans ?_ (settledLE_registerReaction p _ _)
      exact settledLE_proms_append [PState.pending []] rfl
  | allP ps k ih =>
      intro s
      simp only [execProg]
      refine settledLE_trans ?_ (ih s.proms.length _)
      split
      next =>
        refine settledLE_trans ?_ (settledLE_resolvePromise _ _ _)
        exact settledLE_proms_append [PState.pending []] rfl
      next =>
        refine settledLE_trans ?_ (settledLE_registerAll _ _ _ _)
        exact settledLE_proms_append [PState.pending []] rfl
  | allSettledP ps k ih =>
      intro s
      simp only [execProg]
      refine settledLE_trans ?_ (ih s.proms.length _)
      split
      next =>
        refine settledLE_trans ?_ (settledLE_resolvePromise _ _ _)
        exact settledLE_proms_append [PState.pending []] rfl
      next =>
        refine settledLE_trans ?_ (settledLE_registerAll _ _ _ _)
        exact settledLE_proms_append [PState.pending []] rfl

theorem settledLE_runMicro (m : Micro) (s : LoopState) : settledLE s (runMicro m s) := by
  cases m with
  | mrun body =>
      simp only [runMicro]
      cases hx : execProg body s with
      | mk s1 r =>
          have h1 := settledLE_execProg body s
          rw [hx] at h1
          cases r with
          | error e => exact settledLE_trans h1 (settledLE_of_proms_eq rfl)
          | ok v => exact h1
  | react d h res =>
      cases h with
      | some f =>
          simp only [runMicro]
          cases hx : execProg (f (payloadOf res)) s with
          | mk s1 r =>
              have h1 := settledLE_execProg (f (payloadOf res)) s
              rw [hx] at h1
              cases r with
              | error e => exact settledLE_trans h1 (settledLE_rejectPromise d e s1)
              | ok rv => exact settledLE_trans h1 (settledLE_resolvePromise d rv s1)
      | none =>
          cases res with
          | ok v => simp only [runMicro]; exact settledLE_resolvePromise d v s
          | error e => simp only [runMicro]; exact settledLE_rejectPromise d e s
  | combine cid i res =>
      simp only [runMicro]
      exact settledLE_runCombine cid i res s

theorem settledLE_runTask (t : Task) (s : LoopState) : settledLE s (runTask t s) := by
  unfold runTask
  cases hx : execProg t.body s with
  | mk s1 r =>
      have h1 := settledLE_execProg t.body s
      rw [hx] at h1
      cases r with
      | error e => exact settledLE_trans h1 (settledLE_of_proms_eq rfl)
      | ok v => exact h1

theorem settledLE_drainMicro : ∀ (fuel : Nat) (s s1 : LoopState),
    drainMicro fuel s = some s1 → settledLE s s1 := by
  intro fuel
  induction fuel with
  | zero =>
      intro s s1 h
      unfold drainMicro at h
      cases hm : s.micro with
      | nil =>
          rw [hm] at h
          simp only [Option.some.injEq] at h
          exact h ▸ settledLE_refl s
      | cons m rest => rw [hm] at h; simp at h
  | succ n ih =>
      intro s s1 h
      unfold drainMicro at h
      cases hm : s.micro with
      | nil =>
          rw [hm] at h
          simp only [Option.some.injEq] at h
          exact h ▸ settledLE_refl s
      | cons m rest =>
          rw [hm] at h
          refine settledLE_trans ?_ (ih _ _ h)
          exact settledLE_trans (settledLE_of_proms_eq rfl)
            (settledLE_runMicro m { s with micro := rest })

theorem settledLE_tick {fuel : Nat} {s : LoopState} {b : Bool} {s1 : LoopState}
    (h : tick fuel s = some (b, s1)) : settledLE s s1 := by
  unfold tick at h
  cases hd : drainMicro fuel s with
  | none => rw [hd] at h; cases h
  | some sD =>
      rw [hd] at h
      dsimp only at h
      have h0 := settledLE_drainMicro fuel s sD hd
      cases hp : popNextDue (nextClock sD) sD.tasks with
      | some pr =>
          rw [hp] at h
          obtain ⟨t, rest⟩ := pr
          simp only [Option.some.injEq, Prod.mk.injEq] at h
          refine settledLE_trans h0 ?_
          rw [← h.2]
          refine settledLE_trans ?_
            (settledLE_runTask t
              { sD with clock := nextClock sD, tasks := rest })
          exact settledLE_of_proms_eq rfl
      | none =>
          rw [hp] at h
          simp only [Option.some.injEq, Prod.mk.injEq] at h
          refine settledLE_trans h0 ?_
          rw [← h.2]
          exact settledLE_of_proms_eq rfl

theorem settledLE_loopTicks : ∀ (fuel : Nat) (s s1 : LoopState),
    loopTicks fuel s = some s1 → settledLE s s1 := by
  intro fuel
  induction fuel with
  | zero => intro s s1 h; cases h
  | succ n ih =>
      intro s s1 h
      unfold loopTicks at h
      cases ht : tick (n + 1) s with
      | none => rw [ht] at h; cases h
      | some pr =>
          rw [ht] at h
          obtain ⟨b, s2⟩ := pr
          cases b with
          | false =>
              simp only [Option.some.injEq] at h
              exact h ▸ settledLE_tick ht
          | true => exact settledLE_trans (settledLE_tick ht) (ih s2 s1 h)

/-- C5: a PromiseLike settlement is one-way and monotonic — resolve and
reject are no-ops on an already-settled promise, executing any unit of
work or any number of loop iterations preserves a settled state and its
value, and registering two `.then` handlers after settlement schedules
each as its own microtask and runs both in registration order. -/
theorem c5_settlement_one_way_monotonic :
    (∀ (p : Nat) (v w : Value) (s : LoopState),
        s.proms[p]? = some (PState.fulfilled v) →
        resolvePromise p w s = s ∧ rejectPromise p w s = s) ∧
    (∀ (p : Nat) (v w : Value) (s : LoopState),
        s.proms[p]? = some (PState.rejected v) →
        resolvePromise p w s = s ∧ rejectPromise p w s = s) ∧
    (∀ (pr : Prog) (s : LoopState), settledLE s (execProg pr s).1) ∧
    (∀ (fuel : Nat) (s s1 : LoopState), loopTicks fuel s = some s1 → settledLE s s1) ∧
    ((execProg c5prog LoopState.initial).1.micro.length = 2 ∧
      (runToCompletion 6 c5prog).map (fun s => (s.out, s.proms[0]?)) =
        some (["h1:v", "h2"], some (PState.fulfilled (.vstr "v")))) := by
  refine ⟨?_, ?_, settledLE_execProg, settledLE_loopTicks, rfl, rfl⟩
  · intro p v w s h
    constructor
    · unfold resolvePromise; rw [h]
    · unfold rejectPromise; rw [h]
  · intro p v w s h
    constructor
    · unfold resolvePromise; rw [h]
    · unfold rejectPromise; rw [h]

theorem c5_settlement_one_way_monotonic_witness :
    resolvePromise 0 (.vstr "b")
        ⟨0, [PState.fulfilled (.vstr "a")], [true], [], 0, [], [], [], []⟩ =
      ⟨0, [PState.fulfilled (.vstr "a")], [true], [], 0, [], [], [], []⟩ :=
  (c5_settlement_one_way_monotonic.1 0 (.vstr "a") (.vstr "b")
    ⟨0, [PState.fulfilled (.vstr "a")], [true], [], 0, [], [], [], []⟩ rfl).1

theorem c10_thrown_handler_error_rejects_derived_witness :
    runMicro (.react 0 (some fun _ => .throwE (.vstr "b")) (.ok .vunit)) LoopState.initial =
      rejectPromise 0 (.vstr "b") LoopState.initial :=
  c10_thrown_handler_error_rejects_derived.1 0 (fun _ => .throwE (.vstr "b")) (.ok .vunit)
    LoopState.initial LoopState.initial (.vstr "b") rfl

/-- C8: Promise.allSettled over any mix of fulfilled and rejected inputs
resolves with the ordered sequence of outcome records (status plus value
or reason), one per input in input order, only after every input has
settled; the combined promise never itself rejects — it always ends
Fulfilled with the record list. -/
theorem c8_allSettled_ordered_outcome_records (rs : List (Except Value Value))
    (hplain : ∀ r ∈ rs, plainRes r) :
    ∃ s1, runToCompletion (rs.length + 1) (allSettledProg rs) = some s1 ∧
      s1.proms[rs.length]? = some (PState.fulfilled (.vlist (rs.map outcomeRec))) := by
  cases rs with
  | nil => exact ⟨_, rfl, rfl⟩
  | cons r0 rest =>
      unfold allSettledProg
      rw [setup_allSettledP (r0 :: rest) hplain (by simp) ((r0 :: rest).length + 1)]
      obtain ⟨sD, hd, ht, hp⟩ := drainMicro_combines (r0 :: rest) []
        ((r0 :: rest).length + 1)
        { LoopState.initial with
          proms := (r0 :: rest).map toPState ++ [.pending []],
          handled := setTrueRange 0 (r0 :: rest).length
            (List.replicate (r0 :: rest).length false ++ [false]),
          combs := [⟨(r0 :: rest).length, .allSettledK,
            List.replicate (r0 :: rest).length none, (r0 :: rest).length⟩],
          micro := combMicros 0 0 (r0 :: rest) }
        .allSettledK (r0 :: rest).length rfl rfl
        (by
          simpa using
            List.getElem?_concat_length ((r0 :: rest).map toPState) (PState.pending []))
        (fun r hr hk => CombKind.noConfusion hk)
        (by simp) (by omega)
      refine ⟨sD, ?_, ?_⟩
      · exact loopTicks_noTasks (r0 :: rest).length _ sD hd (ht.trans rfl)
      · rw [slotOf_allSettledK_eq] at hp
        simpa using hp

theorem c8_allSettled_ordered_outcome_records_witness :
    ∃ s1, runToCompletion
        ([Except.ok (Value.vstr "a"), Except.error (Value.vstr "b")].length + 1)
        (allSettledProg [Except.ok (Value.vstr "a"), Except.error (Value.vstr "b")]) =
          some s1 ∧
      s1.proms[[Except.ok (Value.vstr "a"), Except.error (Value.vstr "b")].length]? =
        some (PState.fulfilled (.vlist
          ([Except.ok (Value.vstr "a"), Except.error (Value.vstr "b")].map outcomeRec))) :=
  c8_allSettled_ordered_outcome_records
    [Except.ok (Value.vstr "a"), Except.error (Value.vstr "b")]
    (by
      intro r hr
      simp only [List.mem_cons, List.not_mem_nil, or_false] at hr
      rcases hr with rfl | rfl
      · trivial
      · trivial)

/-- C4 (amended): Promise.all resolves with the fulfillment values in
input order even when the inputs settle in a different chronological
order — with input 0 fulfilling V1 at delay 20 and input 1 fulfilling V2
at delay 10 (input 1 settles first), the combined promise ends Fulfilled
[V1, V2]; on rejection it rejects with the first rejection observed
chronologically (completion order, not input order), and the remaining
input promises still settle, un-canceled: with input 0 rejecting E1 at
delay 20 and input 1 rejecting E2 at delay 10, the combined promise ends
Rejected E2 while both inputs end Rejected with their own reasons. -/
theorem c4_all_input_order_values_first_rejection :
    (∀ (vs : List Value), (∀ v ∈ vs, plainVal v) →
      ∃ s1, runToCompletion (vs.length + 1) (allValsProg vs) = some s1 ∧
        s1.proms[vs.length]? = some (PState.fulfilled (.vlist vs))) ∧
    (∃ s1, runToCompletion 8 c4valProg = some s1 ∧
      s1.proms[2]? = some (PState.fulfilled (.vlist [.vstr "V1", .vstr "V2"])) ∧
      s1.proms[0]? = some (PState.fulfilled (.vstr "V1")) ∧
      s1.proms[1]? = some (PState.fulfilled (.vstr "V2"))) ∧
    (∀ (vs : List Value) (e : Value) (rest : List (Except Value Value)),
      (∀ v ∈ vs, plainVal v) → (∀ r ∈ rest, plainRes r) →
      ∃ s1, runToCompletion ((vs.map Except.ok ++ Except.error e :: rest).length + 1)
          (allMixedProg vs e rest) = some s1 ∧
        s1.proms[(vs.map Except.ok ++ Except.error e :: rest).length]? =
          some (PState.rejected e)) ∧
    (∃ s1, runToCompletion 8 c4rejProg = some s1 ∧
      s1.proms[2]? = some (PState.rejected (.vstr "E2")) ∧
      s1.proms[0]? = some (PState.rejected (.vstr "E1")) ∧
      s1.proms[1]? = some (PState.rejected (.vstr "E2"))) := by
  refine ⟨?_, ⟨_, rfl, rfl, rfl, rfl⟩, ?_, ⟨_, rfl, rfl, rfl, rfl⟩⟩
  · intro vs hvs
    cases vs with
    | nil => exact ⟨_, rfl, rfl⟩
    | cons v0 vtl =>
        unfold allValsProg
        rw [setup_allP ((v0 :: vtl).map Except.ok)
          (by
            intro r hr
            obtain ⟨v, hv, rfl⟩ := List.mem_map.mp hr
            exact plainRes_of_plainVal v (hvs v hv))
          (by simp) ((v0 :: vtl).length + 1)]
        obtain ⟨sD, hd, ht, hp⟩ := drainMicro_combines ((v0 :: vtl).map Except.ok) []
          ((v0 :: vtl).length + 1)
          { LoopState.initial with
            proms := ((v0 :: vtl).map Except.ok).map toPState ++ [.pending []],
            handled := setTrueRange 0 ((v0 :: vtl).map Except.ok).length
              (List.replicate ((v0 :: vtl).map Except.ok).length false ++ [false]),
            combs := [⟨((v0 :: vtl).map Except.ok).length, .allK,
              List.replicate ((v0 :: vtl).map Except.ok).length none,
              ((v0 :: vtl).map Except.ok).length⟩],
            micro := combMicros 0 0 ((v0 :: vtl).map Except.ok) }
          .allK ((v0 :: vtl).map Except.ok).length rfl rfl
          (by
            simpa using
              List.getElem?_concat_length (((v0 :: vtl).map Except.ok).map toPState)
                (PState.pending []))
          (fun r hr _ => by
            obtain ⟨v, hv, rfl⟩ := List.mem_map.mp hr
            exact ⟨v, rfl⟩)
          (by simp) (by simp)
        refine ⟨sD, ?_, ?_⟩
        · exact loopTicks_noTasks (v0 :: vtl).length _ sD hd (ht.trans rfl)
        · rw [map_ok_slotOf_allK] at hp
          simpa using hp
  · intro vs e rest hvs hrest
    have hplain : ∀ r ∈ vs.map Except.ok ++ Except.error e :: rest, plainRes r := by
      intro r hr
      rcases List.mem_append.mp hr with h1 | h1
      · obtain ⟨v, hv, rfl⟩ := List.mem_map.mp h1
        exact plainRes_of_plainVal v (hvs v hv)
      · rcases List.mem_cons.mp h1 with rfl | h2
        · trivial
        · exact hrest r h2
    have hL : (vs.map Except.ok ++ Except.error e :: rest).length =
        vs.length + rest.length + 1 := by
      simp only [List.length_append, List.length_map, List.length_cons]
      omega
    unfold allMixedProg
    have hne : vs.map Except.ok ++ Except.error e :: rest ≠ [] := by simp
    have hset := setup_allP (vs.map Except.ok ++ Except.error e :: rest) hplain hne
      ((vs.map Except.ok ++ Except.error e :: rest).length + 1)
    rw [hset]
    obtain ⟨sD, hd, ht, hp⟩ := drainMicro_allK_first_error vs [] e rest
      ((vs.map Except.ok ++ Except.error e :: rest).length + 1)
      { LoopState.initial with
        proms := (vs.map Except.ok ++ Except.error e :: rest).map toPState ++
          [.pending []],
        handled := setTrueRange 0 (vs.map Except.ok ++ Except.error e :: rest).length
          (List.replicate (vs.map Except.ok ++ Except.error e :: rest).length false ++
            [false]),
        combs := [⟨(vs.map Except.ok ++ Except.error e :: rest).length, .allK,
          List.replicate (vs.map Except.ok ++ Except.error e :: rest).length none,
          (vs.map Except.ok ++ Except.error e :: rest).length⟩],
        micro := combMicros 0 0 (vs.map Except.ok ++ Except.error e :: rest) }
      (vs.map Except.ok ++ Except.error e :: rest).length
      rfl (by rw [hL]; rfl)
      (by
        have h := List.getElem?_concat_length
          ((vs.map Except.ok ++ Except.error e :: rest).map toPState)
          (PState.pending [])
        rw [List.length_map] at h
        exact h)
      (by rw [hL]; omega)
    refine ⟨sD, ?_, hp⟩
    exact loopTicks_noTasks (vs.map Except.ok ++ Except.error e :: rest).length _ sD hd
      (ht.trans rfl)

/-- C4 counterexample: with input 0 rejecting E1 (delay 20) and input 1
rejecting E2 (delay 10), the combined promise rejects with E2 — the first
rejection in completion order — which is not E1, the first in input
order. -/
theorem c4_counterexample_input_order_rejection :
    ∃ s1, runToCompletion 8 c4rejProg = some s1 ∧
      s1.proms[2]? = some (PState.rejected (.vstr "E2")) ∧
      Value.vstr "E2" ≠ Value.vstr "E1" := by
  refine ⟨_, rfl, rfl, ?_⟩
  intro h
  injection h with h2
  exact absurd h2 (by decide)

end JsAsync
